import Mathlib

/-!
Verification development for the audiobook-combiner utilities
(combine_audio.py, extract_chapters.py, overwrite_chapters.py).

The Python sources are shallowly embedded:

* Python floats (IEEE-754 binary64) are modelled as rationals together with
  an explicit rounding function to 53 significant bits, round-to-nearest,
  ties-to-even.  The model covers the normal range, which is the only range
  the programs' timestamp arithmetic inhabits; overflow and subnormals never
  arise for the inputs considered here.
* Python Decimal values are exact rationals (the scripts only ever hold
  decimals well inside the configured 28-digit precision, where Decimal
  arithmetic is exact).
* Strings are processed as lists of characters; text files are lists of
  lines.
* Fatal errors (print + sys.exit) are modelled as error results, so a run
  that dies produces no partial output by construction.
-/

/-! ### IEEE-754 binary64 model over ℚ -/

/-- Round a rational to the nearest integer, ties to even.  This is the
rounding used by Python Decimal.quantize(Decimal(1)) under the default
ROUND_HALF_EVEN context. -/
def roundHalfEvenZ (x : ℚ) : ℤ :=
  if x - (⌊x⌋ : ℚ) < 1/2 then ⌊x⌋
  else if 1/2 < x - (⌊x⌋ : ℚ) then ⌊x⌋ + 1
  else if ⌊x⌋ % 2 = 0 then ⌊x⌋ else ⌊x⌋ + 1

/-- Integer power of two as a rational, for an integer (possibly negative)
exponent. -/
def pow2q (k : ℤ) : ℚ :=
  if 0 ≤ k then ((2 ^ k.toNat : ℕ) : ℚ) else 1 / ((2 ^ (-k).toNat : ℕ) : ℚ)

/-- Base-two logarithm (floor) of a positive rational: the unique e with
2^e ≤ y < 2^(e+1), computed from the bit lengths of numerator and
denominator. -/
def qlog2 (y : ℚ) : ℤ :=
  let a : ℤ := Nat.log 2 y.num.toNat
  let b : ℤ := Nat.log 2 y.den
  if pow2q (a - b) ≤ y then a - b else a - b - 1

/-- Round a positive rational to 53 significant binary digits,
round-to-nearest ties-to-even. -/
def roundPos (y : ℚ) : ℚ :=
  ((roundHalfEvenZ (y * pow2q (52 - qlog2 y)) : ℚ)) * pow2q (qlog2 y - 52)

/-- The IEEE-754 binary64 value nearest to a given rational (normal range;
ties to even).  This models Python float construction and the rounding of
every float arithmetic result. -/
def roundDouble (x : ℚ) : ℚ :=
  if x = 0 then 0
  else if 0 < x then roundPos x else -roundPos (-x)

/-- Python float addition: exact sum, rounded to binary64. -/
def fadd (a b : ℚ) : ℚ := roundDouble (a + b)

/-- Python float multiplication by 1000: exact product, rounded to
binary64. -/
def fmul1000 (a : ℚ) : ℚ := roundDouble (a * 1000)

/-- Python float subtraction: exact difference, rounded to binary64. -/
def fsub (a b : ℚ) : ℚ := roundDouble (a - b)

/-! ### Evaluation lemmas for the binary64 model -/

theorem roundHalfEvenZ_of_lt (x : ℚ) (n : ℤ) (h1 : (n : ℚ) ≤ x)
    (h2 : x < (n : ℚ) + 1/2) : roundHalfEvenZ x = n := by
  have hf : ⌊x⌋ = n := by
    rw [Int.floor_eq_iff]
    exact ⟨h1, by linarith⟩
  rw [roundHalfEvenZ, hf, if_pos (by linarith : x - (n : ℚ) < 1/2)]

theorem roundHalfEvenZ_of_gt (x : ℚ) (n : ℤ) (h1 : (n : ℚ) + 1/2 < x)
    (h2 : x < (n : ℚ) + 1) : roundHalfEvenZ x = n + 1 := by
  have hf : ⌊x⌋ = n := by
    rw [Int.floor_eq_iff]
    exact ⟨by linarith, h2⟩
  rw [roundHalfEvenZ, hf, if_neg (by linarith : ¬ (x - (n : ℚ) < 1/2)),
    if_pos (by linarith : (1 : ℚ)/2 < x - (n : ℚ))]

theorem roundHalfEvenZ_tie (n : ℤ) :
    roundHalfEvenZ ((n : ℚ) + 1/2) = if n % 2 = 0 then n else n + 1 := by
  have hf : ⌊(n : ℚ) + 1/2⌋ = n := by
    rw [Int.floor_eq_iff]
    constructor
    · linarith
    · push_cast
      linarith
  rw [roundHalfEvenZ, hf,
    if_neg (by push_cast; linarith : ¬ ((n : ℚ) + 1/2 - (n : ℚ) < 1/2)),
    if_neg (by push_cast; linarith : ¬ ((1 : ℚ)/2 < (n : ℚ) + 1/2 - (n : ℚ)))]

theorem roundHalfEvenZ_intCast (n : ℤ) : roundHalfEvenZ ((n : ℚ)) = n := by
  apply roundHalfEvenZ_of_lt
  · exact le_refl _
  · linarith

theorem roundHalfEvenZ_nonneg (x : ℚ) (h : 0 ≤ x) : 0 ≤ roundHalfEvenZ x := by
  have hfl : (0 : ℤ) ≤ ⌊x⌋ := Int.floor_nonneg.mpr h
  rw [roundHalfEvenZ]
  split
  · exact hfl
  · split
    · omega
    · split
      · exact hfl
      · omega

theorem pow2q_eq_zpow (k : ℤ) : pow2q k = (2 : ℚ) ^ k := by
  rw [pow2q]
  split
  · rename_i h
    rw [Nat.cast_pow, ← zpow_natCast]
    norm_num
    exact h
  · rename_i h
    push_neg at h
    rw [one_div, Nat.cast_pow,
      show ((2 : ℕ) : ℚ) = (2 : ℚ) by norm_num,
      ← zpow_natCast (2 : ℚ) (-k).toNat, ← zpow_neg]
    congr 1
    omega

theorem pow2q_pos (k : ℤ) : 0 < pow2q k := by
  rw [pow2q_eq_zpow]
  positivity

theorem qlog2_window (y : ℚ) (hy : 0 < y) :
    pow2q (qlog2 y) ≤ y ∧ y < pow2q (qlog2 y + 1) := by
  have hnum : 0 < y.num := Rat.num_pos.mpr hy
  have hdenN : 0 < y.den := y.pos
  have hnum' : y.num.toNat ≠ 0 := by omega
  have hden' : y.den ≠ 0 := by omega
  set la : ℕ := Nat.log 2 y.num.toNat with hla
  set lb : ℕ := Nat.log 2 y.den with hlb
  have h1N : (2 : ℕ) ^ la ≤ y.num.toNat := Nat.pow_log_le_self 2 hnum'
  have h2N : y.num.toNat < 2 ^ (la + 1) := Nat.lt_pow_succ_log_self (by norm_num) _
  have h3N : (2 : ℕ) ^ lb ≤ y.den := Nat.pow_log_le_self 2 hden'
  have h4N : y.den < 2 ^ (lb + 1) := Nat.lt_pow_succ_log_self (by norm_num) _
  have hcast : ((y.num.toNat : ℚ)) = (y.num : ℚ) := by
    have := Int.toNat_of_nonneg (le_of_lt hnum)
    exact_mod_cast congrArg (fun z : ℤ => (z : ℚ)) this
  have h1 : (2 : ℚ) ^ la ≤ (y.num : ℚ) := by
    rw [← hcast]; exact_mod_cast h1N
  have h2 : (y.num : ℚ) < (2 : ℚ) ^ (la + 1) := by
    rw [← hcast]; exact_mod_cast h2N
  have h3 : (2 : ℚ) ^ lb ≤ (y.den : ℚ) := by exact_mod_cast h3N
  have h4 : (y.den : ℚ) < (2 : ℚ) ^ (lb + 1) := by exact_mod_cast h4N
  have hdenQ : (0 : ℚ) < (y.den : ℚ) := by exact_mod_cast hdenN
  have hyeq : y = (y.num : ℚ) / (y.den : ℚ) := (Rat.num_div_den y).symm
  have hplaN : (0 : ℚ) < (2 : ℚ) ^ la := by positivity
  have hplb1 : (0 : ℚ) < (2 : ℚ) ^ (lb + 1) := by positivity
  have hplb : (0 : ℚ) < (2 : ℚ) ^ lb := by positivity
  have hpla1 : (0 : ℚ) < (2 : ℚ) ^ (la + 1) := by positivity
  -- lower bound: 2^la / 2^(lb+1) < y
  have hlow : (2 : ℚ) ^ la / (2 : ℚ) ^ (lb + 1) < y := by
    rw [hyeq, div_lt_div_iff hplb1 hdenQ]
    calc (2 : ℚ) ^ la * (y.den : ℚ) < (2 : ℚ) ^ la * (2 : ℚ) ^ (lb + 1) := by
          exact mul_lt_mul_of_pos_left h4 hplaN
      _ ≤ (y.num : ℚ) * (2 : ℚ) ^ (lb + 1) := by
          exact mul_le_mul_of_nonneg_right h1 (le_of_lt hplb1)
  -- upper bound: y < 2^(la+1) / 2^lb
  have hupp : y < (2 : ℚ) ^ (la + 1) / (2 : ℚ) ^ lb := by
    rw [hyeq, div_lt_div_iff hdenQ hplb]
    calc (y.num : ℚ) * (2 : ℚ) ^ lb ≤ (y.num : ℚ) * (y.den : ℚ) := by
          have hn0 : (0 : ℚ) ≤ (y.num : ℚ) := by positivity
          exact mul_le_mul_of_nonneg_left h3 hn0
      _ < (2 : ℚ) ^ (la + 1) * (y.den : ℚ) := by
          exact mul_lt_mul_of_pos_right h2 hdenQ
  -- translate the bounds into zpow form
  have hz1 : ((2 : ℚ) ^ la : ℚ) = (2 : ℚ) ^ ((la : ℤ)) := by
    rw [zpow_natCast]
  have hsub : ∀ i j : ℤ, (2 : ℚ) ^ (i - j) = (2 : ℚ) ^ i / (2 : ℚ) ^ j := by
    intro i j
    rw [zpow_sub₀ (by norm_num : (2 : ℚ) ≠ 0)]
  have hlow' : (2 : ℚ) ^ ((la : ℤ) - (lb : ℤ) - 1) < y := by
    have : (2 : ℚ) ^ ((la : ℤ) - (lb : ℤ) - 1)
        = (2 : ℚ) ^ la / (2 : ℚ) ^ (lb + 1) := by
      rw [show (la : ℤ) - (lb : ℤ) - 1 = (la : ℤ) - ((lb : ℤ) + 1) by ring, hsub]
      rw [zpow_natCast]
      congr 1
      rw [show ((lb : ℤ) + 1) = ((lb + 1 : ℕ) : ℤ) by push_cast; ring, zpow_natCast]
    rw [this]; exact hlow
  have hupp' : y < (2 : ℚ) ^ ((la : ℤ) - (lb : ℤ) + 1) := by
    have : (2 : ℚ) ^ ((la : ℤ) - (lb : ℤ) + 1)
        = (2 : ℚ) ^ (la + 1) / (2 : ℚ) ^ lb := by
      rw [show (la : ℤ) - (lb : ℤ) + 1 = ((la : ℤ) + 1) - (lb : ℤ) by ring, hsub]
      congr 1
      · rw [show ((la : ℤ) + 1) = ((la + 1 : ℕ) : ℤ) by push_cast; ring, zpow_natCast]
      · rw [zpow_natCast]
    rw [this]; exact hupp
  -- now the two branches of qlog2
  unfold qlog2
  rw [← hla, ← hlb]
  by_cases hc : pow2q ((la : ℤ) - (lb : ℤ)) ≤ y
  · rw [if_pos hc]
    refine ⟨hc, ?_⟩
    rw [pow2q_eq_zpow]
    exact hupp'
  · rw [if_neg hc]
    push_neg at hc
    rw [pow2q_eq_zpow] at hc
    constructor
    · rw [pow2q_eq_zpow]
      exact le_of_lt hlow'
    · rw [pow2q_eq_zpow]
      have : (la : ℤ) - (lb : ℤ) - 1 + 1 = (la : ℤ) - (lb : ℤ) := by ring
      rw [this]
      exact hc

theorem pow2q_strictMono {i j : ℤ} (h : i < j) : pow2q i < pow2q j := by
  rw [pow2q_eq_zpow, pow2q_eq_zpow]
  exact zpow_lt_zpow_right₀ (by norm_num) h

theorem qlog2_eq (y : ℚ) (e : ℤ) (hy : 0 < y) (h1 : pow2q e ≤ y)
    (h2 : y < pow2q (e + 1)) : qlog2 y = e := by
  obtain ⟨w1, w2⟩ := qlog2_window y hy
  by_contra hne
  rcases lt_or_gt_of_ne hne with h | h
  · have : qlog2 y + 1 ≤ e := by omega
    have hle : pow2q (qlog2 y + 1) ≤ pow2q e := by
      rcases eq_or_lt_of_le this with heq | hlt
      · rw [heq]
      · exact le_of_lt (pow2q_strictMono hlt)
    linarith
  · have : e + 1 ≤ qlog2 y := by omega
    have hle : pow2q (e + 1) ≤ pow2q (qlog2 y) := by
      rcases eq_or_lt_of_le this with heq | hlt
      · rw [heq]
      · exact le_of_lt (pow2q_strictMono hlt)
    linarith

theorem roundDouble_eq_of (y : ℚ) (e m : ℤ) (h0 : 0 < y)
    (h1 : pow2q e ≤ y) (h2 : y < pow2q (e + 1))
    (hm : roundHalfEvenZ (y * pow2q (52 - e)) = m) :
    roundDouble y = (m : ℚ) * pow2q (e - 52) := by
  have hne : y ≠ 0 := ne_of_gt h0
  unfold roundDouble
  rw [if_neg hne, if_pos h0]
  unfold roundPos
  rw [qlog2_eq y e h0 h1 h2, hm]

theorem roundDouble_nonneg (x : ℚ) (h : 0 ≤ x) : 0 ≤ roundDouble x := by
  unfold roundDouble
  split
  · exact le_refl 0
  · split
    · rename_i hx0 hxpos
      unfold roundPos
      have hm : 0 ≤ roundHalfEvenZ (x * pow2q (52 - qlog2 x)) := by
        apply roundHalfEvenZ_nonneg
        have := pow2q_pos (52 - qlog2 x)
        positivity
      have : (0 : ℚ) ≤ (roundHalfEvenZ (x * pow2q (52 - qlog2 x)) : ℚ) := by
        exact_mod_cast hm
      have hp := pow2q_pos (qlog2 x - 52)
      positivity
    · rename_i hx0 hxpos
      exfalso
      rcases lt_trichotomy x 0 with h' | h' | h'
      · linarith
      · exact hx0 h'
      · exact hxpos h'

theorem roundDouble_zero : roundDouble 0 = 0 := by
  simp [roundDouble]

theorem roundDouble_eval_lt (y : ℚ) (e n : ℤ) (h0 : 0 < y)
    (h1 : (2 : ℚ) ^ e ≤ y) (h2 : y < (2 : ℚ) ^ (e + 1))
    (h3 : (n : ℚ) ≤ y * (2 : ℚ) ^ (52 - e))
    (h4 : y * (2 : ℚ) ^ (52 - e) < (n : ℚ) + 1/2) :
    roundDouble y = (n : ℚ) * (2 : ℚ) ^ (e - 52) := by
  have heq := roundDouble_eq_of y e n h0
    (by rw [pow2q_eq_zpow]; exact h1)
    (by rw [pow2q_eq_zpow]; exact h2)
    (by rw [pow2q_eq_zpow]; exact roundHalfEvenZ_of_lt _ n h3 h4)
  rw [heq, pow2q_eq_zpow]

/-! ### Probed chapters and the hierarchy builder (extract_chapters.py) -/

/-- A chapter record as obtained from the media prober, with the title
already resolved (the script substitutes a default title when the tag is
missing) and start/end times as rationals (the exact values of the parsed
floats). -/
structure PChap where
  title : String
  s : ℚ
  e : ℚ
deriving DecidableEq

/-- A node of the chapter hierarchy: title, interval, and the ordered list
of subchapters, mirroring the dict nodes built by
build_chapter_hierarchy. -/
inductive Node where
  | mk (title : String) (s : ℚ) (e : ℚ) (children : List Node)

def Node.title : Node → String
  | .mk t _ _ _ => t

def Node.s : Node → ℚ
  | .mk _ s _ _ => s

def Node.e : Node → ℚ
  | .mk _ _ e _ => e

def Node.children : Node → List Node
  | .mk _ _ _ cs => cs

/-- Append a completed child node to a parent, as
stack[-1]['subchapters'].append(node) does. -/
def addChild (g c : Node) : Node :=
  .mk g.title g.s g.e (g.children ++ [c])

/-- Close every stack frame whose end time is at most q (the while loop
"while stack and chapter_start >= stack[-1]['end_time']: stack.pop()").
In the Python code a popped node is already attached to its parent, and
attachment mutates shared dicts; functionally, a popped frame is folded
into the children of the frame below it (or into the top-level list when
the stack empties), which yields the same tree because nothing below a
frame changes while it is on the stack. -/
def closeFrames (q : ℚ) : List Node → List Node → List Node × List Node
  | [], roots => ([], roots)
  | f :: rest, roots =>
    if f.e ≤ q then
      match rest with
      | [] => closeFrames q [] (roots ++ [f])
      | g :: rest2 => closeFrames q (addChild g f :: rest2) roots
    else (f :: rest, roots)
termination_by st _ => st.length

/-- Process one chapter of the sorted list: close frames it cannot belong
to, then push its fresh node on the stack. -/
def hstep (st : List Node × List Node) (c : PChap) : List Node × List Node :=
  (Node.mk c.title c.s c.e [] :: (closeFrames c.s st.1 st.2).1,
    (closeFrames c.s st.1 st.2).2)

/-- After the loop, every frame still on the stack is already part of the
tree; fold the remaining frames into each other bottom-up. -/
def finalize : List Node → List Node → List Node
  | [], roots => roots
  | [f], roots => roots ++ [f]
  | f :: g :: rest, roots => finalize (addChild g f :: rest) roots
termination_by st _ => st.length

/-- Stable ascending sort by start time, as
sorted(chapters, key=lambda x: float(x.get('start_time', 0))). -/
def sortByStart (l : List PChap) : List PChap :=
  l.insertionSort (fun a b => a.s ≤ b.s)

/-- The hierarchy builder build_chapter_hierarchy: sort by start time,
then run the containment stack. -/
def build_chapter_hierarchy (l : List PChap) : List Node :=
  finalize ((sortByStart l).foldl hstep ([], [])).1
    ((sortByStart l).foldl hstep ([], [])).2

mutual
/-- All nodes of a tree, root included. -/
def Node.allNodes : Node → List Node
  | .mk t s e cs => .mk t s e cs :: Forest.allNodes cs
/-- All nodes of a forest. -/
def Forest.allNodes : List Node → List Node
  | [] => []
  | n :: ns => Node.allNodes n ++ Forest.allNodes ns
end

/-! ### Invariants of the hierarchy -/

/-- Two intervals are disjoint (they meet at most at an endpoint). -/
def IntervalsDisjoint (as ae bs be : ℚ) : Prop := ae ≤ bs ∨ be ≤ as

/-- The first interval strictly encloses the second. -/
def StrictlyEncloses (as ae bs be : ℚ) : Prop := as < bs ∧ be < ae

/-- Well-formed containment between two intervals: disjoint, or one
strictly encloses the other. -/
def WFPair (as ae bs be : ℚ) : Prop :=
  IntervalsDisjoint as ae bs be ∨ StrictlyEncloses as ae bs be ∨
    StrictlyEncloses bs be as ae

/-- A chapter set has well-formed containment when every chapter is a
genuine interval and every pair is disjoint or strictly nested. -/
def WellFormed (l : List PChap) : Prop :=
  (∀ c ∈ l, c.s ≤ c.e) ∧ l.Pairwise (fun a b => WFPair a.s a.e b.s b.e)

/-- The per-node invariant claimed by the spec: children contained in the
parent interval, siblings non-overlapping, children ordered by start
time ascending; recursively so. -/
inductive Good : Node → Prop where
  | mk (t : String) (s e : ℚ) (cs : List Node) :
      (∀ c ∈ cs, s ≤ c.s ∧ c.e ≤ e) →
      cs.Pairwise (fun a b => ¬ (max a.s b.s < min a.e b.e)) →
      cs.Pairwise (fun a b => a.s ≤ b.s) →
      (∀ c ∈ cs, Good c) →
      Good (.mk t s e cs)

/-- A strengthened nesting invariant that is preserved by the algorithm:
the interval is genuine, children are contained, consecutive children are
separated (earlier end ≤ later start), recursively so. -/
inductive Nested : Node → Prop where
  | mk (t : String) (s e : ℚ) (cs : List Node) :
      s ≤ e →
      (∀ c ∈ cs, s ≤ c.s ∧ c.e ≤ e) →
      cs.Pairwise (fun a b => a.e ≤ b.s) →
      (∀ c ∈ cs, Nested c) →
      Nested (.mk t s e cs)

/-- The pieces of the Nested invariant for a single frame. -/
def FrameOK (f : Node) : Prop :=
  f.s ≤ f.e ∧ (∀ c ∈ f.children, f.s ≤ c.s ∧ c.e ≤ f.e) ∧
    f.children.Pairwise (fun a b => a.e ≤ b.s) ∧ ∀ c ∈ f.children, Nested c

/-- Invariant of the containment stack and the finished top-level nodes.
The threshold m dominates every start seen so far; frames are listed top
first.  For each frame: its start is at most m, every child it has
collected so far ends at or before m, the frame itself is locally sound,
its end is at most the end of the frame below it, and recursively the
frames below satisfy the invariant with the threshold lowered to this
frame's start.  At the bottom, every finished top-level node ends at or
before the threshold. -/
def StackInv (m : ℚ) : List Node → List Node → Prop
  | [], roots => ∀ x ∈ roots, x.e ≤ m
  | f :: rest, roots =>
      f.s ≤ m ∧ (∀ x ∈ f.children, x.e ≤ m) ∧ FrameOK f ∧
        (∀ g, rest.head? = some g → f.e ≤ g.e) ∧ StackInv f.s rest roots

/-- Invariant of the finished top-level nodes. -/
def RootsOK (roots : List Node) : Prop :=
  roots.Pairwise (fun a b => a.e ≤ b.s) ∧ ∀ r ∈ roots, Nested r

/-! ### Preservation lemmas for the containment stack -/

theorem node_mk_s (t : String) (s e : ℚ) (cs : List Node) :
    (Node.mk t s e cs).s = s := rfl

theorem node_mk_e (t : String) (s e : ℚ) (cs : List Node) :
    (Node.mk t s e cs).e = e := rfl

theorem addChild_s (g c : Node) : (addChild g c).s = g.s := rfl

theorem addChild_e (g c : Node) : (addChild g c).e = g.e := rfl

theorem addChild_children (g c : Node) :
    (addChild g c).children = g.children ++ [c] := rfl

theorem frameOK_nested (f : Node) (h : FrameOK f) : Nested f := by
  obtain ⟨h1, h2, h3, h4⟩ := h
  cases f with
  | mk t s e cs => exact Nested.mk t s e cs h1 h2 h3 h4

theorem nested_se (n : Node) (h : Nested n) : n.s ≤ n.e := by
  cases h with
  | mk t s e cs h1 h2 h3 h4 => exact h1

theorem stackInv_mono (m m' : ℚ) (st roots : List Node)
    (h : StackInv m st roots) (hle : m ≤ m') : StackInv m' st roots := by
  cases st with
  | nil =>
    simp only [StackInv] at h ⊢
    intro x hx
    exact le_trans (h x hx) hle
  | cons f rest =>
    simp only [StackInv] at h ⊢
    obtain ⟨h1, h2, h3, h4, h5⟩ := h
    exact ⟨le_trans h1 hle, fun x hx => le_trans (h2 x hx) hle, h3, h4, h5⟩

theorem closeFrames_nil (q : ℚ) (roots : List Node) :
    closeFrames q [] roots = ([], roots) := by
  rw [closeFrames.eq_def]

theorem closeFrames_pop_last (q : ℚ) (f : Node) (roots : List Node)
    (h : f.e ≤ q) : closeFrames q [f] roots = closeFrames q [] (roots ++ [f]) := by
  rw [closeFrames.eq_def]
  simp [h]

theorem closeFrames_pop (q : ℚ) (f g : Node) (rest2 roots : List Node)
    (h : f.e ≤ q) :
    closeFrames q (f :: g :: rest2) roots
      = closeFrames q (addChild g f :: rest2) roots := by
  rw [closeFrames.eq_def]
  simp [h]

theorem closeFrames_stay (q : ℚ) (f : Node) (rest roots : List Node)
    (h : ¬ f.e ≤ q) : closeFrames q (f :: rest) roots = (f :: rest, roots) := by
  rw [closeFrames.eq_def]
  simp [h]

theorem closeFrames_inv (q : ℚ) (st roots : List Node)
    (h : StackInv q st roots) (hr : RootsOK roots) :
    StackInv q (closeFrames q st roots).1 (closeFrames q st roots).2 ∧
    RootsOK (closeFrames q st roots).2 ∧
    (∀ f rest2, (closeFrames q st roots).1 = f :: rest2 → q < f.e) ∧
    (∀ f ∈ (closeFrames q st roots).1, ∃ g ∈ st, f.s = g.s ∧ f.e = g.e) := by
  revert h hr
  induction st, roots using closeFrames.induct q with
  | case1 roots =>
    intro h hr
    rw [closeFrames_nil]
    exact ⟨h, hr, by intro f rest2 hco; simp at hco, by intro f hf; simp at hf⟩
  | case2 f roots hcond ih =>
    intro h hr
    rw [closeFrames_pop_last q f roots hcond]
    simp only [StackInv] at h
    obtain ⟨hfs, hfc, hfok, hfe, hbase⟩ := h
    have hI : StackInv q ([] : List Node) (roots ++ [f]) := by
      simp only [StackInv]
      intro x hx
      rw [List.mem_append] at hx
      rcases hx with hx | hx
      · exact le_trans (hbase x hx) hfs
      · simp at hx
        subst hx
        exact hcond
    have hR : RootsOK (roots ++ [f]) := by
      obtain ⟨hp, hn⟩ := hr
      constructor
      · rw [List.pairwise_append]
        refine ⟨hp, by simp, ?_⟩
        intro a ha b hb
        simp at hb
        subst hb
        exact hbase a ha
      · intro r hrm
        rw [List.mem_append] at hrm
        rcases hrm with hrm | hrm
        · exact hn r hrm
        · simp at hrm
          rw [hrm]
          exact frameOK_nested f hfok
    obtain ⟨c1, c2, c3, c4⟩ := ih hI hR
    refine ⟨c1, c2, c3, ?_⟩
    intro f2 hf2
    obtain ⟨g, hg, hge⟩ := c4 f2 hf2
    simp at hg
  | case3 f roots hcond g rest2 ih =>
    intro h hr
    rw [closeFrames_pop q f g rest2 roots hcond]
    simp only [StackInv] at h
    obtain ⟨hfs, hfc, hfok, hfe, hrest1⟩ := h
    obtain ⟨hgs, hgc, hgok, hge, hrest2⟩ := hrest1
    have hfe2 : f.e ≤ g.e := hfe g rfl
    have hI : StackInv q (addChild g f :: rest2) roots := by
      simp only [StackInv, addChild_s, addChild_e, addChild_children]
      refine ⟨le_trans hgs hfs, ?_, ?_, ?_, hrest2⟩
      · intro x hx
        rw [List.mem_append] at hx
        rcases hx with hx | hx
        · exact le_trans (hgc x hx) hfs
        · simp at hx
          subst hx
          exact hcond
      · obtain ⟨hg1, hg2, hg3, hg4⟩ := hgok
        refine ⟨hg1, ?_, ?_, ?_⟩
        · simp only [addChild_s, addChild_e, addChild_children]
          intro c hc
          rw [List.mem_append] at hc
          rcases hc with hc | hc
          · exact hg2 c hc
          · simp at hc
            subst hc
            exact ⟨hgs, hfe2⟩
        · simp only [addChild_children]
          rw [List.pairwise_append]
          refine ⟨hg3, by simp, ?_⟩
          intro a ha b hb
          simp at hb
          subst hb
          exact hgc a ha
        · simp only [addChild_children]
          intro c hc
          rw [List.mem_append] at hc
          rcases hc with hc | hc
          · exact hg4 c hc
          · simp at hc
            rw [hc]
            exact frameOK_nested f hfok
      · intro g2 hg2
        exact hge g2 hg2
    obtain ⟨c1, c2, c3, c4⟩ := ih hI hr
    refine ⟨c1, c2, c3, ?_⟩
    intro f2 hf2
    obtain ⟨g2, hg2, hge2⟩ := c4 f2 hf2
    rcases List.mem_cons.mp hg2 with hg2 | hg2
    · refine ⟨g, by simp, ?_⟩
      rw [hg2] at hge2
      simpa [addChild_s, addChild_e] using hge2
    · exact ⟨g2, by simp [hg2], hge2⟩
  | case4 f rest roots hcond =>
    intro h hr
    rw [closeFrames_stay q f rest roots hcond]
    push_neg at hcond
    refine ⟨h, hr, ?_, ?_⟩
    · intro f2 rest2 heq
      rw [List.cons.injEq] at heq
      rw [← heq.1]
      exact hcond
    · intro f2 hf2
      exact ⟨f2, hf2, rfl, rfl⟩

theorem finalize_nil (roots : List Node) : finalize [] roots = roots := by
  rw [finalize.eq_def]

theorem finalize_one (f : Node) (roots : List Node) :
    finalize [f] roots = roots ++ [f] := by
  rw [finalize.eq_def]

theorem finalize_cons (f g : Node) (rest roots : List Node) :
    finalize (f :: g :: rest) roots = finalize (addChild g f :: rest) roots := by
  rw [finalize.eq_def]

theorem finalize_ok (st roots : List Node) :
    (∃ m, StackInv m st roots) → RootsOK roots → RootsOK (finalize st roots) := by
  induction st, roots using finalize.induct with
  | case1 roots =>
    intro _ hr
    rw [finalize_nil]
    exact hr
  | case2 f roots =>
    intro hex hr
    obtain ⟨m, h⟩ := hex
    rw [finalize_one]
    simp only [StackInv] at h
    obtain ⟨hfs, hfc, hfok, hfe, hbase⟩ := h
    obtain ⟨hp, hn⟩ := hr
    constructor
    · rw [List.pairwise_append]
      refine ⟨hp, by simp, ?_⟩
      intro a ha b hb
      simp at hb
      rw [hb]
      exact hbase a ha
    · intro r hrm
      rw [List.mem_append] at hrm
      rcases hrm with hrm | hrm
      · exact hn r hrm
      · simp at hrm
        rw [hrm]
        exact frameOK_nested f hfok
  | case3 f g rest roots ih =>
    intro hex hr
    obtain ⟨m, h⟩ := hex
    rw [finalize_cons]
    simp only [StackInv] at h
    obtain ⟨hfs, hfc, hfok, hfe, hrest1⟩ := h
    obtain ⟨hgs, hgc, hgok, hge, hrest2⟩ := hrest1
    have hfe2 : f.e ≤ g.e := hfe g rfl
    refine ih ⟨max f.s f.e, ?_⟩ hr
    simp only [StackInv, addChild_s, addChild_e, addChild_children]
    refine ⟨le_trans hgs (le_max_left _ _), ?_, ?_, ?_, hrest2⟩
    · intro x hx
      rw [List.mem_append] at hx
      rcases hx with hx | hx
      · exact le_trans (hgc x hx) (le_max_left _ _)
      · simp at hx
        rw [hx]
        exact le_max_right _ _
    · obtain ⟨hg1, hg2, hg3, hg4⟩ := hgok
      refine ⟨hg1, ?_, ?_, ?_⟩
      · simp only [addChild_s, addChild_e, addChild_children]
        intro c hc
        rw [List.mem_append] at hc
        rcases hc with hc | hc
        · exact hg2 c hc
        · simp at hc
          rw [hc]
          exact ⟨hgs, hfe2⟩
      · simp only [addChild_children]
        rw [List.pairwise_append]
        refine ⟨hg3, by simp, ?_⟩
        intro a ha b hb
        simp at hb
        rw [hb]
        exact hgc a ha
      · simp only [addChild_children]
        intro c hc
        rw [List.mem_append] at hc
        rcases hc with hc | hc
        · exact hg4 c hc
        · simp at hc
          rw [hc]
          exact frameOK_nested f hfok
    · intro g2 hg2
      exact hge g2 hg2

theorem wfpair_symm (as ae bs be : ℚ) (h : WFPair as ae bs be) :
    WFPair bs be as ae := by
  rcases h with (h | h) | h | h
  · exact Or.inl (Or.inr h)
  · exact Or.inl (Or.inl h)
  · exact Or.inr (Or.inr h)
  · exact Or.inr (Or.inl h)

theorem wfpair_end_le (gs ge cs ce : ℚ) (hg : gs ≤ ge) (hc : cs ≤ ce)
    (hgs : gs ≤ cs) (hlt : cs < ge) (hwf : WFPair gs ge cs ce) : ce ≤ ge := by
  rcases hwf with (h | h) | h | h
  · exact absurd hlt (not_lt.mpr h)
  · linarith
  · exact le_of_lt h.2
  · linarith [h.1]

theorem hstep_eq (stack roots : List Node) (c : PChap) :
    hstep (stack, roots) c
      = (Node.mk c.title c.s c.e [] :: (closeFrames c.s stack roots).1,
        (closeFrames c.s stack roots).2) := rfl

theorem foldl_inv (rem : List PChap) :
    ∀ (stack roots : List Node) (m : ℚ),
    StackInv m stack roots → RootsOK roots →
    (∀ c ∈ rem, m ≤ c.s) →
    rem.Pairwise (fun a b => a.s ≤ b.s) →
    rem.Pairwise (fun a b => WFPair a.s a.e b.s b.e) →
    (∀ c ∈ rem, c.s ≤ c.e) →
    (∀ f ∈ stack, ∀ c ∈ rem, WFPair f.s f.e c.s c.e) →
    (∃ m', StackInv m' (rem.foldl hstep (stack, roots)).1
        (rem.foldl hstep (stack, roots)).2) ∧
      RootsOK (rem.foldl hstep (stack, roots)).2 := by
  induction rem with
  | nil =>
    intro stack roots m h hr _ _ _ _ _
    exact ⟨⟨m, h⟩, hr⟩
  | cons c rem2 ih =>
    intro stack roots m h hr hm hsort hwf hval hfwf
    have hmq : m ≤ c.s := hm c (List.mem_cons_self c rem2)
    have h2 := stackInv_mono m c.s stack roots h hmq
    obtain ⟨hI, hR, htop, hcorr⟩ := closeFrames_inv c.s stack roots h2 hr
    rw [List.foldl_cons, hstep_eq]
    have hcse : c.s ≤ c.e := hval c (List.mem_cons_self c rem2)
    have hnewI : StackInv c.s
        (Node.mk c.title c.s c.e [] :: (closeFrames c.s stack roots).1)
        (closeFrames c.s stack roots).2 := by
      simp only [StackInv, node_mk_s, node_mk_e]
      refine ⟨le_refl _, by simp [Node.children], ?_, ?_, hI⟩
      · refine ⟨hcse, by simp [Node.children], by simp [Node.children],
          by simp [Node.children]⟩
      · intro g hg
        have hcons : ∃ rest2, (closeFrames c.s stack roots).1 = g :: rest2 := by
          cases hcf : (closeFrames c.s stack roots).1 with
          | nil => rw [hcf] at hg; simp at hg
          | cons a rest2 =>
            rw [hcf] at hg
            simp at hg
            exact ⟨rest2, by rw [hg]⟩
        obtain ⟨rest2, hcf⟩ := hcons
        have hqlt : c.s < g.e := htop g rest2 hcf
        have hgtop : g.s ≤ c.s ∧ g.s ≤ g.e := by
          rw [hcf] at hI
          simp only [StackInv] at hI
          exact ⟨hI.1, hI.2.2.1.1⟩
        have hgmem : g ∈ (closeFrames c.s stack roots).1 := by
          rw [hcf]
          exact List.mem_cons_self g rest2
        obtain ⟨g0, hg0, hg0s, hg0e⟩ := hcorr g hgmem
        have hwfgc : WFPair g.s g.e c.s c.e := by
          rw [hg0s, hg0e]
          exact hfwf g0 hg0 c (List.mem_cons_self c rem2)
        exact wfpair_end_le g.s g.e c.s c.e hgtop.2 hcse hgtop.1 hqlt hwfgc
    refine ih _ _ c.s hnewI hR ?_ ?_ ?_ ?_ ?_
    · intro x hx
      exact (List.pairwise_cons.mp hsort).1 x hx
    · exact (List.pairwise_cons.mp hsort).2
    · exact (List.pairwise_cons.mp hwf).2
    · intro x hx
      exact hval x (List.mem_cons_of_mem c hx)
    · intro f hf x hx
      rcases List.mem_cons.mp hf with hf | hf
      · rw [hf, node_mk_s, node_mk_e]
        exact (List.pairwise_cons.mp hwf).1 x hx
      · obtain ⟨g0, hg0, hg0s, hg0e⟩ := hcorr f hf
        rw [hg0s, hg0e]
        exact hfwf g0 hg0 x (List.mem_cons_of_mem c hx)

theorem nested_good (n : Node) (h : Nested n) : Good n := by
  induction h with
  | mk t s e cs hse hcont hpw hall ih =>
    refine Good.mk t s e cs hcont ?_ ?_ (fun c hc => ih c hc)
    · refine hpw.imp ?_
      intro a b hab
      rw [not_lt]
      calc min a.e b.e ≤ a.e := min_le_left _ _
        _ ≤ b.s := hab
        _ ≤ max a.s b.s := le_max_right _ _
    · refine List.Pairwise.imp_of_mem ?_ hpw
      intro a b ha _ hab
      have : a.s ≤ a.e := nested_se a (hall a ha)
      linarith

instance : IsTotal PChap (fun a b => a.s ≤ b.s) := ⟨fun a b => le_total a.s b.s⟩

instance : IsTrans PChap (fun a b => a.s ≤ b.s) := ⟨fun _ _ _ => le_trans⟩

theorem sortByStart_sorted (l : List PChap) :
    (sortByStart l).Pairwise (fun a b => a.s ≤ b.s) :=
  List.sorted_insertionSort (r := fun a b : PChap => a.s ≤ b.s) l

theorem sortByStart_perm (l : List PChap) : (sortByStart l).Perm l :=
  List.perm_insertionSort _ l

theorem rootsOK_nil : RootsOK [] := ⟨List.Pairwise.nil, by simp⟩

theorem stackInv_nil_nil (m : ℚ) : StackInv m [] [] := by
  simp only [StackInv]
  intro x hx
  simp at hx

/-- C2.  On a chapter set with well-formed containment (pairwise disjoint
or strictly nested intervals), every node the hierarchy builder produces
has its children contained in its own interval, its children pairwise
non-overlapping, and its children ordered by ascending start time. -/
theorem hierarchy_builder_invariants (l : List PChap) (h : WellFormed l) :
    ∀ n ∈ build_chapter_hierarchy l, Good n := by
  obtain ⟨hval, hpw⟩ := h
  have hperm := sortByStart_perm l
  have hsorted := sortByStart_sorted l
  have hwfs : (sortByStart l).Pairwise (fun a b => WFPair a.s a.e b.s b.e) :=
    (hperm.pairwise_iff
      (by intro a b hab; exact wfpair_symm a.s a.e b.s b.e hab)).mpr hpw
  have hvals : ∀ c ∈ sortByStart l, c.s ≤ c.e := by
    intro c hc
    exact hval c (hperm.mem_iff.mp hc)
  rw [build_chapter_hierarchy]
  cases hs : sortByStart l with
  | nil =>
    simp only [List.foldl_nil, finalize_nil]
    intro n hn
    simp at hn
  | cons c rest =>
    rw [hs] at hsorted hwfs hvals
    have hm : ∀ x ∈ c :: rest, c.s ≤ x.s := by
      intro x hx
      rcases List.mem_cons.mp hx with hx | hx
      · rw [hx]
      · exact (List.pairwise_cons.mp hsorted).1 x hx
    obtain ⟨hex, hR⟩ := foldl_inv (c :: rest) [] [] c.s (stackInv_nil_nil c.s)
      rootsOK_nil hm hsorted hwfs hvals (by intro f hf; simp at hf)
    have hfin := finalize_ok _ _ hex hR
    intro n hn
    exact nested_good n (hfin.2 n hn)

/-! ### Filtering, extraction and display (extract_chapters.py) -/

/-- Chapters kept by the one-second filter:
[c for c in chapters if float(c['end_time']) - float(c['start_time']) >= 1.0].
The subtraction is a binary64 float subtraction, so the difference is
rounded before the threshold comparison. -/
def filterChapters (l : List PChap) : List PChap :=
  l.filter (fun c => 1 ≤ fsub c.e c.s)

/-- The extraction loop of ChapterExtractor.extract_chapters: walk the
filtered chapters, skip short ones (dead code after the filter), skip a
chapter whose (title, start, end) key was already processed, otherwise
emit it and advance the chapter counter.  The duration is the binary64
difference end - start, as in the source.  The ffmpeg invocation is an
external collaborator and is modelled as succeeding.  Returns the emitted
keys in order together with the final counter. -/
def extractLoop : List PChap → List (String × ℚ × ℚ) → ℕ →
    List (String × ℚ × ℚ) × ℕ
  | [], _, counter => ([], counter)
  | c :: rest, processed, counter =>
    if fsub c.e c.s < 1 then extractLoop rest processed counter
    else if (c.title, c.s, c.e) ∈ processed then extractLoop rest processed counter
    else
      ((c.title, c.s, c.e) :: (extractLoop rest ((c.title, c.s, c.e) :: processed) (counter + 1)).1,
        (extractLoop rest ((c.title, c.s, c.e) :: processed) (counter + 1)).2)

/-- The chapter extraction entry point extract_chapters: nothing is
produced when no chapters, or when at most one chapter survives the
filter; otherwise the extraction loop runs on the filtered list with the
counter starting at 1. -/
def extract_chapters (l : List PChap) : List (String × ℚ × ℚ) :=
  if l = [] then []
  else if (filterChapters l).length ≤ 1 then []
  else (extractLoop (filterChapters l) [] 1).1

/-- The final value of the chapter counter for a run of extract_chapters
(it starts at 1 and is advanced once per emitted chapter). -/
def extractCounter (l : List PChap) : ℕ :=
  if l = [] then 1
  else if (filterChapters l).length ≤ 1 then 1
  else (extractLoop (filterChapters l) [] 1).2

/-- The display path display_chapters: returns the hierarchy that gets
rendered, or none when nothing at all is displayed.  Note the guard in the
source is only "if not filtered_chapters", so a single surviving chapter
is still displayed. -/
def display_chapters (l : List PChap) : Option (List Node) :=
  if l = [] then none
  else if filterChapters l = [] then none
  else some (build_chapter_hierarchy (filterChapters l))

/-! ### Every node of the built hierarchy comes from an input chapter -/

theorem forest_allNodes_append (a b : List Node) :
    Forest.allNodes (a ++ b) = Forest.allNodes a ++ Forest.allNodes b := by
  induction a with
  | nil => simp [Forest.allNodes]
  | cons n ns ih =>
    rw [List.cons_append, Forest.allNodes, Forest.allNodes, ih, List.append_assoc]

theorem node_mem_allNodes_self (n : Node) : n ∈ Node.allNodes n := by
  cases n with
  | mk t s e cs =>
    rw [Node.allNodes]
    exact List.mem_cons_self _ _

theorem allNodes_addChild (g f x : Node) (hx : x ∈ Node.allNodes (addChild g f)) :
    x = addChild g f ∨ x ∈ Forest.allNodes g.children ∨ x ∈ Node.allNodes f := by
  cases g with
  | mk t s e cs =>
    simp only [addChild, Node.title, Node.s, Node.e, Node.children] at hx ⊢
    rw [Node.allNodes] at hx
    rcases List.mem_cons.mp hx with hx | hx
    · exact Or.inl hx
    · rw [forest_allNodes_append] at hx
      rcases List.mem_append.mp hx with hx | hx
      · exact Or.inr (Or.inl hx)
      · simp only [Forest.allNodes, List.append_nil] at hx
        exact Or.inr (Or.inr hx)

/-- Interval property lifted to all nodes of a forest. -/
def ForestP (P : ℚ → ℚ → Prop) (ns : List Node) : Prop :=
  ∀ n ∈ Forest.allNodes ns, P n.s n.e

theorem forestP_nil (P : ℚ → ℚ → Prop) : ForestP P [] := by
  intro n hn
  simp [Forest.allNodes] at hn

theorem forestP_cons (P : ℚ → ℚ → Prop) (n : Node) (ns : List Node)
    (h1 : ∀ x ∈ Node.allNodes n, P x.s x.e) (h2 : ForestP P ns) :
    ForestP P (n :: ns) := by
  intro x hx
  rw [Forest.allNodes] at hx
  rcases List.mem_append.mp hx with hx | hx
  · exact h1 x hx
  · exact h2 x hx

theorem forestP_cons_elim (P : ℚ → ℚ → Prop) (n : Node) (ns : List Node)
    (h : ForestP P (n :: ns)) :
    (∀ x ∈ Node.allNodes n, P x.s x.e) ∧ ForestP P ns := by
  constructor
  · intro x hx
    exact h x (by rw [Forest.allNodes]; exact List.mem_append.mpr (Or.inl hx))
  · intro x hx
    exact h x (by rw [Forest.allNodes]; exact List.mem_append.mpr (Or.inr hx))

theorem forestP_append (P : ℚ → ℚ → Prop) (a b : List Node)
    (ha : ForestP P a) (hb : ForestP P b) : ForestP P (a ++ b) := by
  intro x hx
  rw [forest_allNodes_append] at hx
  rcases List.mem_append.mp hx with hx | hx
  · exact ha x hx
  · exact hb x hx

theorem nodeP_addChild (P : ℚ → ℚ → Prop) (g f : Node)
    (hg : ∀ x ∈ Node.allNodes g, P x.s x.e)
    (hf : ∀ x ∈ Node.allNodes f, P x.s x.e) :
    ∀ x ∈ Node.allNodes (addChild g f), P x.s x.e := by
  intro x hx
  rcases allNodes_addChild g f x hx with hx | hx | hx
  · rw [hx, addChild_s, addChild_e]
    exact hg g (node_mem_allNodes_self g)
  · apply hg
    cases g with
    | mk t s e cs =>
      rw [Node.allNodes]
      exact List.mem_cons_of_mem _ hx
  · exact hf x hx

theorem closeFrames_forestP (P : ℚ → ℚ → Prop) (q : ℚ) (st roots : List Node)
    (hst : ForestP P st) (hroots : ForestP P roots) :
    ForestP P (closeFrames q st roots).1 ∧ ForestP P (closeFrames q st roots).2 := by
  revert hst hroots
  induction st, roots using closeFrames.induct q with
  | case1 roots =>
    intro hst hroots
    rw [closeFrames_nil]
    exact ⟨hst, hroots⟩
  | case2 f roots hcond ih =>
    intro hst hroots
    rw [closeFrames_pop_last q f roots hcond]
    obtain ⟨hf, _⟩ := forestP_cons_elim P f [] hst
    exact ih (forestP_nil P) (forestP_append P roots [f] hroots
      (forestP_cons P f [] hf (forestP_nil P)))
  | case3 f roots hcond g rest2 ih =>
    intro hst hroots
    rw [closeFrames_pop q f g rest2 roots hcond]
    obtain ⟨hf, hrest⟩ := forestP_cons_elim P f (g :: rest2) hst
    obtain ⟨hg, hrest2⟩ := forestP_cons_elim P g rest2 hrest
    exact ih (forestP_cons P _ rest2 (nodeP_addChild P g f hg hf) hrest2) hroots
  | case4 f rest roots hcond =>
    intro hst hroots
    rw [closeFrames_stay q f rest roots hcond]
    exact ⟨hst, hroots⟩

theorem finalize_forestP (P : ℚ → ℚ → Prop) (st roots : List Node)
    (hst : ForestP P st) (hroots : ForestP P roots) :
    ForestP P (finalize st roots) := by
  revert hst hroots
  induction st, roots using finalize.induct with
  | case1 roots =>
    intro _ hroots
    rw [finalize_nil]
    exact hroots
  | case2 f roots =>
    intro hst hroots
    rw [finalize_one]
    obtain ⟨hf, _⟩ := forestP_cons_elim P f [] hst
    exact forestP_append P roots [f] hroots (forestP_cons P f [] hf (forestP_nil P))
  | case3 f g rest roots ih =>
    intro hst hroots
    rw [finalize_cons]
    obtain ⟨hf, hrest⟩ := forestP_cons_elim P f (g :: rest) hst
    obtain ⟨hg, hrest2⟩ := forestP_cons_elim P g rest hrest
    exact ih (forestP_cons P _ rest (nodeP_addChild P g f hg hf) hrest2) hroots

theorem foldl_forestP (P : ℚ → ℚ → Prop) (rem : List PChap) :
    ∀ (stack roots : List Node),
    (∀ c ∈ rem, P c.s c.e) → ForestP P stack → ForestP P roots →
    ForestP P (rem.foldl hstep (stack, roots)).1 ∧
      ForestP P (rem.foldl hstep (stack, roots)).2 := by
  induction rem with
  | nil =>
    intro stack roots _ hst hroots
    exact ⟨hst, hroots⟩
  | cons c rest ih =>
    intro stack roots hrem hst hroots
    rw [List.foldl_cons, hstep_eq]
    obtain ⟨h1, h2⟩ := closeFrames_forestP P c.s stack roots hst hroots
    refine ih _ _ (fun x hx => hrem x (List.mem_cons_of_mem c hx)) ?_ h2
    refine forestP_cons P _ _ ?_ h1
    intro x hx
    rw [Node.allNodes] at hx
    simp only [Forest.allNodes] at hx
    rcases List.mem_cons.mp hx with hx | hx
    · rw [hx, node_mk_s, node_mk_e]
      exact hrem c (List.mem_cons_self c rest)
    · simp at hx

theorem build_hierarchy_forestP (P : ℚ → ℚ → Prop) (l : List PChap)
    (h : ∀ c ∈ l, P c.s c.e) :
    ∀ n ∈ Forest.allNodes (build_chapter_hierarchy l), P n.s n.e := by
  have hs : ∀ c ∈ sortByStart l, P c.s c.e := by
    intro c hc
    exact h c ((sortByStart_perm l).mem_iff.mp hc)
  rw [build_chapter_hierarchy]
  obtain ⟨h1, h2⟩ := foldl_forestP P (sortByStart l) [] [] hs
    (forestP_nil P) (forestP_nil P)
  exact finalize_forestP P _ _ h1 h2

/-! ### Extraction loop properties -/

theorem extractLoop_nil (processed : List (String × ℚ × ℚ)) (counter : ℕ) :
    extractLoop [] processed counter = ([], counter) := rfl

theorem extractLoop_spec (rest : List PChap) :
    ∀ (processed : List (String × ℚ × ℚ)) (counter : ℕ),
    (extractLoop rest processed counter).1.Nodup ∧
    (∀ k ∈ (extractLoop rest processed counter).1, k ∉ processed) ∧
    (extractLoop rest processed counter).2
      = counter + (extractLoop rest processed counter).1.length ∧
    (∀ k ∈ (extractLoop rest processed counter).1,
      ∃ c ∈ rest, k = (c.title, c.s, c.e) ∧ 1 ≤ fsub c.e c.s) := by
  induction rest with
  | nil =>
    intro processed counter
    rw [extractLoop_nil]
    refine ⟨List.nodup_nil, by simp, by simp, by simp⟩
  | cons c rest ih =>
    intro processed counter
    rw [extractLoop]
    by_cases hshort : fsub c.e c.s < 1
    · rw [if_pos hshort]
      obtain ⟨i1, i2, i3, i4⟩ := ih processed counter
      refine ⟨i1, i2, i3, ?_⟩
      intro k hk
      obtain ⟨c2, hc2, hk2⟩ := i4 k hk
      exact ⟨c2, List.mem_cons_of_mem c hc2, hk2⟩
    · rw [if_neg hshort]
      by_cases hdup : (c.title, c.s, c.e) ∈ processed
      · rw [if_pos hdup]
        obtain ⟨i1, i2, i3, i4⟩ := ih processed counter
        refine ⟨i1, i2, i3, ?_⟩
        intro k hk
        obtain ⟨c2, hc2, hk2⟩ := i4 k hk
        exact ⟨c2, List.mem_cons_of_mem c hc2, hk2⟩
      · rw [if_neg hdup]
        obtain ⟨i1, i2, i3, i4⟩ :=
          ih ((c.title, c.s, c.e) :: processed) (counter + 1)
        refine ⟨?_, ?_, ?_, ?_⟩
        · rw [List.nodup_cons]
          refine ⟨?_, i1⟩
          intro hmem
          exact (i2 _ hmem) (List.mem_cons_self _ _)
        · intro k hk
          rcases List.mem_cons.mp hk with hk | hk
          · rw [hk]
            exact hdup
          · intro hmem
            exact (i2 k hk) (List.mem_cons_of_mem _ hmem)
        · simp only [List.length_cons]
          omega
        · intro k hk
          rcases List.mem_cons.mp hk with hk | hk
          · exact ⟨c, List.mem_cons_self c rest, hk, not_lt.mp hshort⟩
          · obtain ⟨c2, hc2, hk2⟩ := i4 k hk
            exact ⟨c2, List.mem_cons_of_mem c hc2, hk2⟩

/-- C10.  Extraction emits at most one output per distinct
(title, start, end) triple, and the chapter counter advances exactly once
per emitted output (so a skipped duplicate advances nothing). -/
theorem extraction_dedups (l : List PChap) :
    (extract_chapters l).Nodup ∧
      extractCounter l = 1 + (extract_chapters l).length := by
  rw [extract_chapters, extractCounter]
  by_cases h0 : l = []
  · rw [if_pos h0, if_pos h0]
    exact ⟨List.nodup_nil, by simp⟩
  · rw [if_neg h0, if_neg h0]
    by_cases h1 : (filterChapters l).length ≤ 1
    · rw [if_pos h1, if_pos h1]
      exact ⟨List.nodup_nil, by simp⟩
    · rw [if_neg h1, if_neg h1]
      obtain ⟨i1, _, i3, _⟩ := extractLoop_spec (filterChapters l) [] 1
      exact ⟨i1, by omega⟩

/-- C9 (amended).  A chapter whose binary64 duration float(end) -
float(start) is below the one-second threshold is absent from the
filtered list, from the extracted output, and from every node of the
displayed hierarchy.  (The threshold compares the rounded float
difference, not the exact duration: see the counterexample.) -/
theorem short_chapters_dropped (l : List PChap) (c : PChap) (hc : c ∈ l)
    (hd : fsub c.e c.s < 1) :
    c ∉ filterChapters l ∧
    (∀ k ∈ extract_chapters l, ¬ (k.2.1 = c.s ∧ k.2.2 = c.e)) ∧
    (∀ forest, display_chapters l = some forest →
      ∀ n ∈ Forest.allNodes forest, ¬ (n.s = c.s ∧ n.e = c.e)) := by
  refine ⟨?_, ?_, ?_⟩
  · intro hmem
    rw [filterChapters, List.mem_filter] at hmem
    have : (1 : ℚ) ≤ fsub c.e c.s := by
      have := hmem.2
      simpa using this
    linarith
  · intro k hk hke
    rw [extract_chapters] at hk
    by_cases h0 : l = []
    · rw [if_pos h0] at hk
      simp at hk
    · rw [if_neg h0] at hk
      by_cases h1 : (filterChapters l).length ≤ 1
      · rw [if_pos h1] at hk
        simp at hk
      · rw [if_neg h1] at hk
        obtain ⟨_, _, _, i4⟩ := extractLoop_spec (filterChapters l) [] 1
        obtain ⟨c2, hc2, hk2, hdur⟩ := i4 k hk
        rw [filterChapters, List.mem_filter] at hc2
        rw [hk2] at hke
        simp only at hke
        rw [hke.1, hke.2] at hdur
        linarith
  · intro forest hf n hn hne
    rw [display_chapters] at hf
    by_cases h0 : l = []
    · rw [if_pos h0] at hf
      simp at hf
    · rw [if_neg h0] at hf
      by_cases h1 : filterChapters l = []
      · rw [if_pos h1] at hf
        simp at hf
      · rw [if_neg h1] at hf
        have hfor : forest = build_chapter_hierarchy (filterChapters l) := by
          injection hf with hf2
          exact hf2.symm
        have hall := build_hierarchy_forestP (fun s e => 1 ≤ fsub e s)
          (filterChapters l) ?_ n (by rw [← hfor]; exact hn)
        · rw [hne.1, hne.2] at hall
          linarith
        · intro c2 hc2
          rw [filterChapters, List.mem_filter] at hc2
          simpa using hc2.2

/-! ### The single-chapter display path -/

theorem roundDouble_eval_gt (y : ℚ) (e n : ℤ) (h0 : 0 < y)
    (h1 : (2 : ℚ) ^ e ≤ y) (h2 : y < (2 : ℚ) ^ (e + 1))
    (h3 : (n : ℚ) + 1/2 < y * (2 : ℚ) ^ (52 - e))
    (h4 : y * (2 : ℚ) ^ (52 - e) < (n : ℚ) + 1) :
    roundDouble y = ((n : ℚ) + 1) * (2 : ℚ) ^ (e - 52) := by
  have heq := roundDouble_eq_of y e (n + 1) h0
    (by rw [pow2q_eq_zpow]; exact h1)
    (by rw [pow2q_eq_zpow]; exact h2)
    (by rw [pow2q_eq_zpow]; exact roundHalfEvenZ_of_gt _ n h3 h4)
  rw [heq, pow2q_eq_zpow]
  push_cast
  ring

theorem filterChapters_nil : filterChapters [] = [] := rfl

theorem filterChapters_cons_keep (c : PChap) (l : List PChap)
    (h : 1 ≤ fsub c.e c.s) :
    filterChapters (c :: l) = c :: filterChapters l := by
  rw [filterChapters, filterChapters]
  simp [List.filter_cons, h]

theorem fsub_100_0 : fsub (100 : ℚ) 0 = 100 := by
  rw [fsub, show (100 : ℚ) - 0 = 100 by norm_num]
  have := roundDouble_eval_lt 100 6 (100 * 2 ^ 46) (by norm_num) (by norm_num)
    (by norm_num) (by norm_num) (by norm_num)
  rw [this]
  norm_num

theorem filterChapters_singleton_keep :
    filterChapters [PChap.mk "Only" 0 100] = [PChap.mk "Only" 0 100] := by
  rw [filterChapters_cons_keep, filterChapters_nil]
  show (1 : ℚ) ≤ fsub 100 0
  rw [fsub_100_0]
  norm_num

theorem build_singleton :
    build_chapter_hierarchy [PChap.mk "Only" 0 100]
      = [Node.mk "Only" 0 100 []] := by
  have hsort : sortByStart [PChap.mk "Only" 0 100] = [PChap.mk "Only" 0 100] := by
    rw [sortByStart]
    simp [List.insertionSort, List.orderedInsert]
  rw [build_chapter_hierarchy, hsort, List.foldl_cons, List.foldl_nil, hstep_eq,
    closeFrames_nil]
  rw [finalize_one]
  simp

/-- C3 (divergence witness).  With exactly one chapter surviving the
one-second filter, extraction produces nothing, but the display path still
renders the one-chapter structure: its guard only checks for an empty
filtered list, contradicting the script's own docstring ("If the input
.m4b contains only one chapter, no extraction or display is
performed."). -/
theorem singleton_displayed :
    extract_chapters [PChap.mk "Only" 0 100] = [] ∧
    (filterChapters [PChap.mk "Only" 0 100]).length = 1 ∧
    display_chapters [PChap.mk "Only" 0 100]
      = some [Node.mk "Only" 0 100 []] := by
  refine ⟨?_, ?_, ?_⟩
  · rw [extract_chapters, if_neg (by simp), if_pos]
    rw [filterChapters_singleton_keep]
    simp
  · rw [filterChapters_singleton_keep]
    simp
  · rw [display_chapters, if_neg (by simp),
      if_neg (by rw [filterChapters_singleton_keep]; simp),
      filterChapters_singleton_keep, build_singleton]

/-! ### Text parsing (overwrite_chapters.py) -/

/-- ASCII whitespace as recognised by Python str.strip and the regex
class backslash-s (the scripts only ever see ASCII whitespace). -/
def pyWS (c : Char) : Bool :=
  c == ' ' || c == '\t' || c == '\n' || c == '\r' || c == '\x0b' || c == '\x0c'

/-- Python str.strip(): remove leading and trailing whitespace. -/
def pyStrip (l : List Char) : List Char :=
  ((l.dropWhile pyWS).reverse.dropWhile pyWS).reverse

/-- Python str.split(sep) for a single-character separator. -/
def splitSep (sep : Char) : List Char → List (List Char)
  | [] => [[]]
  | c :: cs =>
    if c == sep then [] :: splitSep sep cs
    else (splitSep sep cs).modifyHead (fun h => c :: h)

/-- Numeric value of a digit string. -/
def digitsVal (l : List Char) : ℕ :=
  l.foldl (fun acc c => 10 * acc + (c.toNat - '0'.toNat)) 0

/-- Python int(str) on the inputs reachable here: an optional sign
followed by one or more digits (the exotic int() forms - underscores,
surrounding whitespace - cannot reach this code and are not modelled). -/
def pyInt (l : List Char) : Option ℤ :=
  match l with
  | [] => none
  | c :: cs =>
    if c = '+' then
      if cs ≠ [] ∧ cs.all Char.isDigit then some ((digitsVal cs : ℤ)) else none
    else if c = '-' then
      if cs ≠ [] ∧ cs.all Char.isDigit then some (-(digitsVal cs : ℤ)) else none
    else if (c :: cs).all Char.isDigit then some ((digitsVal (c :: cs) : ℤ))
    else none

/-- Python Decimal(str) on the inputs reachable here: an optional sign,
then digits with at most one decimal point and at least one digit in
total (exponent, infinity and NaN forms cannot reach this code and are
not modelled).  The value is exact. -/
def pyDecimalCore (l : List Char) : Option ℚ :=
  match splitSep '.' l with
  | [a] => if a ≠ [] ∧ a.all Char.isDigit then some ((digitsVal a : ℚ)) else none
  | [a, b] =>
    if (a ≠ [] ∨ b ≠ []) ∧ a.all Char.isDigit ∧ b.all Char.isDigit then
      some ((digitsVal a : ℚ) + (digitsVal b : ℚ) / (10 : ℚ) ^ b.length)
    else none
  | _ => none

def pyDecimal (l : List Char) : Option ℚ :=
  match l with
  | [] => none
  | c :: cs =>
    if c = '+' then pyDecimalCore cs
    else if c = '-' then (pyDecimalCore cs).map (fun q => -q)
    else pyDecimalCore (c :: cs)

/-- The exact total-seconds value computed inside parse_duration before
the final float conversion: strip, split on colons, parse the pieces,
and combine hours*3600 + minutes*60 + seconds in exact arithmetic (ints
plus a Decimal).  A failure models the except branch that exits. -/
def parse_durationExact (l : List Char) : Option ℚ :=
  match splitSep ':' (pyStrip l) with
  | [p0, p1, p2] =>
    match pyInt p0, pyInt p1, pyDecimal p2 with
    | some h, some m, some s => some ((h : ℚ) * 3600 + (m : ℚ) * 60 + s)
    | _, _, _ => none
  | [p0, p1] =>
    match pyInt p0, pyDecimal p1 with
    | some m, some s => some ((m : ℚ) * 60 + s)
    | _, _ => none
  | _ => none

/-- parse_duration: the exact value is converted to a Python float on
return (total_seconds = float(...)). -/
def parse_duration (l : List Char) : Option ℚ :=
  (parse_durationExact l).map roundDouble

/-- Exactly one or two digits. -/
def oneOrTwoDigits (p : List Char) : Bool :=
  match p with
  | [a] => a.isDigit
  | [a, b] => a.isDigit && b.isDigit
  | _ => false

/-- Exactly two digits. -/
def twoDigits (p : List Char) : Bool :=
  match p with
  | [a, b] => a.isDigit && b.isDigit
  | _ => false

/-- An optional fractional suffix: empty, or a dot followed by at least
one digit. -/
def fracPart : List Char → Bool
  | [] => true
  | c :: ds => c == '.' && !ds.isEmpty && ds.all Char.isDigit

/-- Two digits followed by an optional fractional suffix. -/
def twoDigitsFrac (p : List Char) : Bool :=
  match p with
  | a :: b :: rest => a.isDigit && b.isDigit && fracPart rest
  | _ => false

/-- The duration-token grammar of the read_chapters regex:
one or two digits, a colon, two digits, optionally a colon and two more
digits, optionally a dot and digits. -/
def durTok (t : List Char) : Bool :=
  match splitSep ':' t with
  | [a, b] => oneOrTwoDigits a && twoDigitsFrac b
  | [a, b, c] => oneOrTwoDigits a && twoDigits b && twoDigitsFrac c
  | _ => false

/-- Find the duration token at a fixed title/whitespace boundary: the
suffix must begin with whitespace; the greediest split (longest
whitespace run whose remainder is a valid token reaching the end of the
line) is preferred, matching the backtracking of a greedy backslash-s-plus
followed by an anchored token. -/
def tryJ (suf : List Char) : ℕ → Option (List Char)
  | 0 => none
  | j + 1 =>
    if durTok (suf.drop (j + 1)) then some (suf.drop (j + 1)) else tryJ suf j

/-- Scan title boundaries left to right (the lazy dot-star-question takes
the shortest title), returning (title, duration token) for the match the
regex engine would produce, or none when the line does not match. -/
def findSplitGo (pre : List Char) : List Char → Option (List Char × List Char)
  | [] => none
  | c :: cs =>
    match tryJ (c :: cs) ((( c :: cs).takeWhile pyWS).length) with
    | some tok => some (pre.reverse, tok)
    | none => findSplitGo (c :: pre) cs

/-- Model of re.match applied to a chapter-spec line with the pattern
anchored title-whitespace-duration. -/
def findSplit (l : List Char) : Option (List Char × List Char) :=
  findSplitGo [] l

/-- A line that read_chapters skips: blank, or starting with a hash. -/
def skipLine : List Char → Bool
  | [] => true
  | c :: _ => c == '#'

/-- Errors of read_chapters: a line that does not match the pattern
(reported with its 1-based line number), or an unparsable duration
(the error branch inside parse_duration). -/
inductive RCErr where
  | malformed (lineNo : ℕ) (line : List Char)
  | badDuration (tok : List Char)
deriving DecidableEq

/-- The line loop of read_chapters, carrying the 1-based line number.
A fatal print-and-exit is an error result: no partial chapter list
escapes. -/
def readChaptersGo (no : ℕ) : List (List Char) → Except RCErr (List (List Char × ℚ))
  | [] => .ok []
  | l :: rest =>
    if skipLine (pyStrip l) then readChaptersGo (no + 1) rest
    else
      match findSplit (pyStrip l) with
      | none => .error (.malformed no (pyStrip l))
      | some (t, tok) =>
        match parse_duration tok with
        | none => .error (.badDuration tok)
        | some d => (readChaptersGo (no + 1) rest).map (fun cs => (t, d) :: cs)

/-- read_chapters on the lines of the chapter-spec file. -/
def read_chapters (lines : List (List Char)) :
    Except RCErr (List (List Char × ℚ)) :=
  readChaptersGo 1 lines

/-! ### Lemmas about tokens and parsing -/

theorem isDigit_not_pyWS (c : Char) (h : c.isDigit = true) : pyWS c = false := by
  by_contra hw
  rw [Bool.not_eq_false] at hw
  simp only [pyWS, Bool.or_eq_true, beq_iff_eq] at hw
  rcases hw with ((((h1 | h1) | h1) | h1) | h1) | h1 <;>
    (subst h1; revert h; decide)

theorem isDigit_ne_plus (c : Char) (h : c.isDigit = true) : c ≠ '+' := by
  intro heq
  rw [heq] at h
  exact absurd h (by decide)

theorem isDigit_ne_minus (c : Char) (h : c.isDigit = true) : c ≠ '-' := by
  intro heq
  rw [heq] at h
  exact absurd h (by decide)

theorem isDigit_ne_dot (c : Char) (h : c.isDigit = true) : c ≠ '.' := by
  intro heq
  rw [heq] at h
  exact absurd h (by decide)

theorem isDigit_ne_colon (c : Char) (h : c.isDigit = true) : c ≠ ':' := by
  intro heq
  rw [heq] at h
  exact absurd h (by decide)

theorem dropWhile_all_false (p : Char → Bool) (l : List Char)
    (h : ∀ c ∈ l, p c = false) : l.dropWhile p = l := by
  cases l with
  | nil => rfl
  | cons a cs =>
    rw [List.dropWhile_cons, h a (List.mem_cons_self a cs)]
    simp

theorem pyStrip_no_ws (l : List Char) (h : ∀ c ∈ l, pyWS c = false) :
    pyStrip l = l := by
  rw [pyStrip, dropWhile_all_false pyWS l h,
    dropWhile_all_false pyWS l.reverse
      (by intro c hc; exact h c (List.mem_reverse.mp hc)),
    List.reverse_reverse]

theorem splitSep_ne_nil (sep : Char) (l : List Char) : splitSep sep l ≠ [] := by
  cases l with
  | nil => simp [splitSep]
  | cons c cs =>
    rw [splitSep]
    by_cases hc : (c == sep) = true
    · rw [if_pos hc]
      simp
    · rw [if_neg hc]
      cases hsp : splitSep sep cs with
      | nil => exact absurd hsp (splitSep_ne_nil sep cs)
      | cons h t => simp

theorem splitSep_no_sep (sep : Char) (l : List Char) (h : ∀ c ∈ l, c ≠ sep) :
    splitSep sep l = [l] := by
  induction l with
  | nil => rfl
  | cons c cs ih =>
    rw [splitSep, ih (fun x hx => h x (List.mem_cons_of_mem c hx)),
      if_neg (by simp; exact h c (List.mem_cons_self c cs))]
    rfl

theorem splitSep_append_sep (sep : Char) (a b : List Char)
    (h : ∀ c ∈ a, c ≠ sep) :
    splitSep sep (a ++ sep :: b) = a :: splitSep sep b := by
  induction a with
  | nil =>
    simp only [List.nil_append]
    rw [splitSep, if_pos (by simp)]
  | cons x xs ih =>
    rw [List.cons_append, splitSep,
      ih (fun c hc => h c (List.mem_cons_of_mem x hc)),
      if_neg (by simp; exact h x (List.mem_cons_self x xs))]
    rfl

theorem mem_splitSep (sep : Char) (l : List Char) (c : Char) (hc : c ∈ l) :
    c = sep ∨ ∃ p ∈ splitSep sep l, c ∈ p := by
  induction l with
  | nil => simp at hc
  | cons a cs ih =>
    rw [splitSep]
    by_cases ha : (a == sep) = true
    · rw [if_pos ha]
      rcases List.mem_cons.mp hc with hc1 | hc1
      · rw [beq_iff_eq] at ha
        rw [hc1, ha]
        exact Or.inl rfl
      · rcases ih hc1 with h1 | ⟨p, hp, hcp⟩
        · exact Or.inl h1
        · exact Or.inr ⟨p, List.mem_cons_of_mem _ hp, hcp⟩
    · rw [if_neg ha]
      cases hsp : splitSep sep cs with
      | nil => exact absurd hsp (splitSep_ne_nil sep cs)
      | cons hh tt =>
        rw [List.modifyHead_cons]
        rcases List.mem_cons.mp hc with hc1 | hc1
        · exact Or.inr ⟨a :: hh, List.mem_cons_self _ _,
            by rw [hc1]; exact List.mem_cons_self a hh⟩
        · rcases ih hc1 with h1 | ⟨p, hp, hcp⟩
          · exact Or.inl h1
          · rw [hsp] at hp
            rcases List.mem_cons.mp hp with hp1 | hp1
            · exact Or.inr ⟨a :: hh, List.mem_cons_self _ _,
                by rw [← hp1]; exact List.mem_cons_of_mem a hcp⟩
            · exact Or.inr ⟨p, List.mem_cons_of_mem _ hp1, hcp⟩

theorem oneOrTwoDigits_chars (p : List Char) (h : oneOrTwoDigits p = true) :
    p ≠ [] ∧ ∀ c ∈ p, c.isDigit = true := by
  match p with
  | [] => exact absurd h (by simp [oneOrTwoDigits])
  | [a] =>
    rw [oneOrTwoDigits] at h
    exact ⟨by simp, by intro c hc; simp at hc; rw [hc]; exact h⟩
  | [a, b] =>
    rw [oneOrTwoDigits, Bool.and_eq_true] at h
    refine ⟨by simp, ?_⟩
    intro c hc
    rcases List.mem_cons.mp hc with hc | hc
    · rw [hc]; exact h.1
    · simp at hc; rw [hc]; exact h.2
  | a :: b :: c :: rest => exact absurd h (by simp [oneOrTwoDigits])

theorem twoDigits_chars (p : List Char) (h : twoDigits p = true) :
    p ≠ [] ∧ ∀ c ∈ p, c.isDigit = true := by
  match p with
  | [] => exact absurd h (by simp [twoDigits])
  | [a] => exact absurd h (by simp [twoDigits])
  | [a, b] =>
    rw [twoDigits, Bool.and_eq_true] at h
    refine ⟨by simp, ?_⟩
    intro c hc
    rcases List.mem_cons.mp hc with hc | hc
    · rw [hc]; exact h.1
    · simp at hc; rw [hc]; exact h.2
  | a :: b :: c :: rest => exact absurd h (by simp [twoDigits])

theorem twoDigitsFrac_chars (p : List Char) (h : twoDigitsFrac p = true) :
    p ≠ [] ∧ ∀ c ∈ p, c.isDigit = true ∨ c = '.' := by
  match p with
  | [] => exact absurd h (by simp [twoDigitsFrac])
  | [a] => exact absurd h (by simp [twoDigitsFrac])
  | a :: b :: rest =>
    rw [twoDigitsFrac, Bool.and_eq_true, Bool.and_eq_true] at h
    obtain ⟨⟨ha, hb⟩, hf⟩ := h
    refine ⟨by simp, ?_⟩
    intro c hc
    rcases List.mem_cons.mp hc with hc | hc
    · rw [hc]; exact Or.inl ha
    rcases List.mem_cons.mp hc with hc | hc
    · rw [hc]; exact Or.inl hb
    cases rest with
    | nil => simp at hc
    | cons c0 ds =>
      rw [fracPart, Bool.and_eq_true, Bool.and_eq_true] at hf
      obtain ⟨⟨hc0, _⟩, hds⟩ := hf
      rcases List.mem_cons.mp hc with hc | hc
      · rw [beq_iff_eq] at hc0
        rw [hc, hc0]
        exact Or.inr rfl
      · rw [List.all_eq_true] at hds
        exact Or.inl (hds c hc)

theorem durTok_chars (t : List Char) (h : durTok t = true) :
    ∀ c ∈ t, pyWS c = false := by
  intro c hct
  rcases mem_splitSep ':' t c hct with hc | ⟨p, hp, hcp⟩
  · rw [hc]
    decide
  · rw [durTok] at h
    have hdig : c.isDigit = true ∨ c = '.' := by
      cases hsp : splitSep ':' t with
      | nil => exact absurd hsp (splitSep_ne_nil ':' t)
      | cons p1 rest =>
        rw [hsp] at h hp
        cases rest with
        | nil => simp at h
        | cons p2 rest2 =>
          cases rest2 with
          | nil =>
            rw [Bool.and_eq_true] at h
            rcases List.mem_cons.mp hp with hp1 | hp1
            · rw [hp1] at hcp
              exact Or.inl ((oneOrTwoDigits_chars p1 h.1).2 c hcp)
            · simp at hp1
              rw [hp1] at hcp
              exact (twoDigitsFrac_chars p2 h.2).2 c hcp
          | cons p3 rest3 =>
            cases rest3 with
            | nil =>
              rw [Bool.and_eq_true, Bool.and_eq_true] at h
              rcases List.mem_cons.mp hp with hp1 | hp1
              · rw [hp1] at hcp
                exact Or.inl ((oneOrTwoDigits_chars p1 h.1.1).2 c hcp)
              rcases List.mem_cons.mp hp1 with hp2 | hp2
              · rw [hp2] at hcp
                exact Or.inl ((twoDigits_chars p2 h.1.2).2 c hcp)
              · simp at hp2
                rw [hp2] at hcp
                exact (twoDigitsFrac_chars p3 h.2).2 c hcp
            | cons p4 rest4 => simp at h
    rcases hdig with hdig | hdig
    · exact isDigit_not_pyWS c hdig
    · rw [hdig]
      decide

theorem pyStrip_durTok (t : List Char) (h : durTok t = true) : pyStrip t = t :=
  pyStrip_no_ws t (durTok_chars t h)

theorem pyInt_digits (a : List Char) (h1 : a ≠ [])
    (h2 : ∀ c ∈ a, c.isDigit = true) : pyInt a = some ((digitsVal a : ℤ)) := by
  cases a with
  | nil => exact absurd rfl h1
  | cons c cs =>
    have hc : c.isDigit = true := h2 c (List.mem_cons_self c cs)
    rw [pyInt, if_neg (isDigit_ne_plus c hc), if_neg (isDigit_ne_minus c hc),
      if_pos]
    rw [List.all_eq_true]
    exact h2

theorem pyDecimal_frac (p : List Char) (h : twoDigitsFrac p = true) :
    ∃ q, pyDecimal p = some q ∧ 0 ≤ q := by
  match p with
  | [] => exact absurd h (by simp [twoDigitsFrac])
  | [a] => exact absurd h (by simp [twoDigitsFrac])
  | a :: b :: rest =>
    rw [twoDigitsFrac, Bool.and_eq_true, Bool.and_eq_true] at h
    obtain ⟨⟨ha, hb⟩, hf⟩ := h
    rw [pyDecimal, if_neg (isDigit_ne_plus a ha), if_neg (isDigit_ne_minus a ha),
      pyDecimalCore]
    cases rest with
    | nil =>
      rw [splitSep_no_sep '.' [a, b] (by
        intro c hc
        rcases List.mem_cons.mp hc with hc | hc
        · rw [hc]; exact isDigit_ne_dot a ha
        · simp at hc; rw [hc]; exact isDigit_ne_dot b hb)]
      dsimp only
      rw [if_pos ⟨by simp, by simp [ha, hb]⟩]
      exact ⟨_, rfl, by positivity⟩
    | cons c0 ds =>
      rw [fracPart, Bool.and_eq_true, Bool.and_eq_true] at hf
      obtain ⟨⟨hc0, hne⟩, hds⟩ := hf
      rw [beq_iff_eq] at hc0
      rw [List.all_eq_true] at hds
      have hsp : splitSep '.' (a :: b :: c0 :: ds) = [a, b] :: splitSep '.' ds := by
        have := splitSep_append_sep '.' [a, b] ds (by
          intro c hc
          rcases List.mem_cons.mp hc with hc | hc
          · rw [hc]; exact isDigit_ne_dot a ha
          · simp at hc; rw [hc]; exact isDigit_ne_dot b hb)
        rw [hc0]
        simpa using this
      rw [hsp, splitSep_no_sep '.' ds (fun c hc => isDigit_ne_dot c (hds c hc))]
      dsimp only
      rw [if_pos ⟨Or.inl (by simp), by simp [ha, hb],
        by rw [List.all_eq_true]; exact hds⟩]
      refine ⟨_, rfl, ?_⟩
      have h10 : (0 : ℚ) < (10 : ℚ) ^ ds.length := by positivity
      positivity

theorem durTok_parse (t : List Char) (h : durTok t = true) :
    ∃ q, parse_duration t = some q ∧ 0 ≤ q := by
  have hstrip := pyStrip_durTok t h
  rw [durTok] at h
  rw [parse_duration, parse_durationExact, hstrip]
  cases hsp : splitSep ':' t with
  | nil => exact absurd hsp (splitSep_ne_nil ':' t)
  | cons p1 rest =>
    rw [hsp] at h
    cases rest with
    | nil => simp at h
    | cons p2 rest2 =>
      cases rest2 with
      | nil =>
        rw [Bool.and_eq_true] at h
        obtain ⟨hmin, hsec⟩ := h
        obtain ⟨hne, hdig⟩ := oneOrTwoDigits_chars p1 hmin
        obtain ⟨s, hs, hs0⟩ := pyDecimal_frac p2 hsec
        dsimp only
        rw [pyInt_digits p1 hne hdig, hs]
        refine ⟨_, rfl, ?_⟩
        apply roundDouble_nonneg
        have : (0 : ℚ) ≤ ((digitsVal p1 : ℤ) : ℚ) := by positivity
        linarith
      | cons p3 rest3 =>
        cases rest3 with
        | nil =>
          rw [Bool.and_eq_true, Bool.and_eq_true] at h
          obtain ⟨⟨hhr, hmin⟩, hsec⟩ := h
          obtain ⟨hne1, hdig1⟩ := oneOrTwoDigits_chars p1 hhr
          obtain ⟨hne2, hdig2⟩ := twoDigits_chars p2 hmin
          obtain ⟨s, hs, hs0⟩ := pyDecimal_frac p3 hsec
          dsimp only
          rw [pyInt_digits p1 hne1 hdig1, pyInt_digits p2 hne2 hdig2, hs]
          refine ⟨_, rfl, ?_⟩
          apply roundDouble_nonneg
          have h1 : (0 : ℚ) ≤ ((digitsVal p1 : ℤ) : ℚ) := by positivity
          have h2 : (0 : ℚ) ≤ ((digitsVal p2 : ℤ) : ℚ) := by positivity
          linarith
        | cons p4 rest4 => simp at h

theorem tryJ_tok (suf : List Char) :
    ∀ (j : ℕ) (tok : List Char), tryJ suf j = some tok → durTok tok = true := by
  intro j
  induction j with
  | zero =>
    intro tok htok
    simp [tryJ] at htok
  | succ j ih =>
    intro tok htok
    rw [tryJ] at htok
    by_cases hd : durTok (suf.drop (j + 1)) = true
    · rw [if_pos hd] at htok
      injection htok with htok
      rw [← htok]
      exact hd
    · rw [if_neg hd] at htok
      exact ih tok htok

theorem findSplitGo_tok (l : List Char) :
    ∀ (pre t tok : List Char), findSplitGo pre l = some (t, tok) →
      durTok tok = true := by
  induction l with
  | nil =>
    intro pre t tok htok
    simp [findSplitGo] at htok
  | cons c cs ih =>
    intro pre t tok htok
    rw [findSplitGo] at htok
    cases htry : tryJ (c :: cs) (((c :: cs).takeWhile pyWS).length) with
    | some tok2 =>
      rw [htry] at htok
      injection htok with htok
      have : tok2 = tok := by
        have := congrArg Prod.snd htok
        simpa using this
      rw [← this]
      exact tryJ_tok (c :: cs) _ tok2 htry
    | none =>
      rw [htry] at htok
      exact ih (c :: pre) t tok htok

theorem findSplit_tok (l t tok : List Char) (h : findSplit l = some (t, tok)) :
    durTok tok = true :=
  findSplitGo_tok l [] t tok h

/-! ### Properties of the read_chapters line loop -/

theorem readGo_lineNo_toOption (ys : List (List Char)) :
    ∀ no no2 : ℕ,
      (readChaptersGo no ys).toOption = (readChaptersGo no2 ys).toOption := by
  induction ys with
  | nil =>
    intro no no2
    rfl
  | cons l rest ih =>
    intro no no2
    rw [readChaptersGo, readChaptersGo]
    by_cases hskip : skipLine (pyStrip l) = true
    · rw [if_pos hskip, if_pos hskip]
      exact ih (no + 1) (no2 + 1)
    · rw [if_neg hskip, if_neg hskip]
      cases hfs : findSplit (pyStrip l) with
      | none => rfl
      | some p =>
        obtain ⟨t, tok⟩ := p
        dsimp only
        cases hp : parse_duration tok with
        | none => rfl
        | some d =>
          have := ih (no + 1) (no2 + 1)
          cases h1 : readChaptersGo (no + 1) rest with
          | error e =>
            cases h2 : readChaptersGo (no2 + 1) rest with
            | error e2 => rfl
            | ok r2 =>
              rw [h1, h2] at this
              simp [Except.toOption] at this
          | ok r =>
            cases h2 : readChaptersGo (no2 + 1) rest with
            | error e2 =>
              rw [h1, h2] at this
              simp [Except.toOption] at this
            | ok r2 =>
              rw [h1, h2] at this
              simp [Except.toOption] at this
              rw [this]

theorem readGo_skip_insert (xs : List (List Char)) :
    ∀ (no : ℕ) (b : List Char) (ys : List (List Char)),
      skipLine (pyStrip b) = true →
      (readChaptersGo no (xs ++ b :: ys)).toOption
        = (readChaptersGo no (xs ++ ys)).toOption := by
  induction xs with
  | nil =>
    intro no b ys hb
    simp only [List.nil_append]
    rw [readChaptersGo, if_pos hb]
    exact readGo_lineNo_toOption ys (no + 1) no
  | cons x xs ih =>
    intro no b ys hb
    simp only [List.cons_append]
    rw [readChaptersGo, readChaptersGo]
    by_cases hskip : skipLine (pyStrip x) = true
    · rw [if_pos hskip, if_pos hskip]
      exact ih (no + 1) b ys hb
    · rw [if_neg hskip, if_neg hskip]
      cases hfs : findSplit (pyStrip x) with
      | none => rfl
      | some p =>
        obtain ⟨t, tok⟩ := p
        dsimp only
        cases hp : parse_duration tok with
        | none => rfl
        | some d =>
          have := ih (no + 1) b ys hb
          cases h1 : readChaptersGo (no + 1) (xs ++ b :: ys) with
          | error e =>
            cases h2 : readChaptersGo (no + 1) (xs ++ ys) with
            | error e2 => rfl
            | ok r2 =>
              rw [h1, h2] at this
              simp [Except.toOption] at this
          | ok r =>
            cases h2 : readChaptersGo (no + 1) (xs ++ ys) with
            | error e2 =>
              rw [h1, h2] at this
              simp [Except.toOption] at this
            | ok r2 =>
              rw [h1, h2] at this
              simp [Except.toOption] at this
              rw [this]

theorem readGo_error_at (xs : List (List Char)) :
    ∀ (no : ℕ) (l : List Char) (ys : List (List Char)),
      (∀ x ∈ xs, skipLine (pyStrip x) = true ∨ findSplit (pyStrip x) ≠ none) →
      skipLine (pyStrip l) = false →
      findSplit (pyStrip l) = none →
      readChaptersGo no (xs ++ l :: ys)
        = .error (.malformed (no + xs.length) (pyStrip l)) := by
  induction xs with
  | nil =>
    intro no l ys _ hl hnm
    simp only [List.nil_append, List.length_nil, Nat.add_zero]
    rw [readChaptersGo, if_neg (by rw [hl]; simp), hnm]
  | cons x xs ih =>
    intro no l ys hgood hl hnm
    simp only [List.cons_append, List.length_cons]
    rw [readChaptersGo]
    rcases hgood x (List.mem_cons_self x xs) with hx | hx
    · rw [if_pos hx, ih (no + 1) l ys
        (fun y hy => hgood y (List.mem_cons_of_mem x hy)) hl hnm,
        show no + 1 + xs.length = no + (xs.length + 1) by omega]
    · by_cases hskip : skipLine (pyStrip x) = true
      · rw [if_pos hskip, ih (no + 1) l ys
          (fun y hy => hgood y (List.mem_cons_of_mem x hy)) hl hnm,
          show no + 1 + xs.length = no + (xs.length + 1) by omega]
      · rw [if_neg hskip]
        cases hfs : findSplit (pyStrip x) with
        | none => exact absurd hfs hx
        | some p =>
          obtain ⟨t, tok⟩ := p
          dsimp only
          obtain ⟨q, hq, hq0⟩ :=
            durTok_parse tok (findSplit_tok (pyStrip x) t tok hfs)
          rw [hq, ih (no + 1) l ys
            (fun y hy => hgood y (List.mem_cons_of_mem x hy)) hl hnm]
          dsimp only [Except.map]
          rw [show no + 1 + xs.length = no + (xs.length + 1) by omega]

theorem readGo_ok_nonneg (lines : List (List Char)) :
    ∀ (no : ℕ) (res : List (List Char × ℚ)),
      readChaptersGo no lines = .ok res → ∀ p ∈ res, 0 ≤ p.2 := by
  induction lines with
  | nil =>
    intro no res hok p hp
    rw [readChaptersGo] at hok
    injection hok with hok
    rw [← hok] at hp
    simp at hp
  | cons l rest ih =>
    intro no res hok p hp
    rw [readChaptersGo] at hok
    by_cases hskip : skipLine (pyStrip l) = true
    · rw [if_pos hskip] at hok
      exact ih (no + 1) res hok p hp
    · rw [if_neg hskip] at hok
      cases hfs : findSplit (pyStrip l) with
      | none =>
        rw [hfs] at hok
        simp at hok
      | some pr =>
        obtain ⟨t, tok⟩ := pr
        rw [hfs] at hok
        dsimp only at hok
        have hd := findSplit_tok (pyStrip l) t tok hfs
        obtain ⟨q, hq, hq0⟩ := durTok_parse tok hd
        rw [hq] at hok
        cases h1 : readChaptersGo (no + 1) rest with
        | error e =>
          rw [h1] at hok
          dsimp only [Except.map] at hok
          simp at hok
        | ok r =>
          rw [h1] at hok
          dsimp only [Except.map] at hok
          injection hok with hok
          rw [← hok] at hp
          rcases List.mem_cons.mp hp with hp1 | hp1
          · rw [hp1]
            exact hq0
          · exact ih (no + 1) r h1 p hp1

/-- C7.  Reading a chapter-spec file skips blank and hash-comment lines
(they contribute nothing to the outcome), and any other line that does
not match "title, whitespace, duration token" is a fatal error carrying
that line's 1-based number; the error result carries no partial chapter
list. -/
theorem read_chapters_line_discipline
    (xs ys : List (List Char)) (b l : List Char)
    (hb : skipLine (pyStrip b) = true)
    (hgood : ∀ x ∈ xs, skipLine (pyStrip x) = true ∨ findSplit (pyStrip x) ≠ none)
    (hl : skipLine (pyStrip l) = false)
    (hnm : findSplit (pyStrip l) = none) :
    (read_chapters (xs ++ b :: ys)).toOption
      = (read_chapters (xs ++ ys)).toOption ∧
    read_chapters (xs ++ l :: ys)
      = .error (.malformed (xs.length + 1) (pyStrip l)) := by
  constructor
  · exact readGo_skip_insert xs 1 b ys hb
  · rw [read_chapters, readGo_error_at xs 1 l ys hgood hl hnm, Nat.add_comm]

/-- C8.  Durations reaching the timeline are never negative: every token
matching the duration grammar parses to a non-negative value, every
chapter list read_chapters returns has only non-negative durations, and a
line whose duration is negative, non-numeric or not of the form
H:MM:SS[.fff] / M:SS[.fff] fails the line pattern and is a fatal error
instead of producing a chapter. -/
theorem negative_durations_rejected :
    (∀ t : List Char, durTok t = true → ∃ q, parse_duration t = some q ∧ 0 ≤ q) ∧
    (∀ (lines : List (List Char)) (res : List (List Char × ℚ)),
      read_chapters lines = .ok res → ∀ p ∈ res, 0 ≤ p.2) ∧
    (∀ l : List Char, skipLine (pyStrip l) = false →
      findSplit (pyStrip l) = none →
      read_chapters [l] = .error (.malformed 1 (pyStrip l))) := by
  refine ⟨durTok_parse, ?_, ?_⟩
  · intro lines res h
    exact readGo_ok_nonneg lines 1 res h
  · intro l hl hnm
    have := readGo_error_at [] 1 l [] (by simp) hl hnm
    simpa using this

/-! ### Timeline building and metadata serialization -/

/-- The running-cursor timeline of create_metadata_file: the cursor is a
Python float starting at 0.0; each chapter occupies [cursor,
cursor + duration) and the cursor advances by a float addition. -/
def timelineF : ℚ → List (List Char × ℚ) → List (List Char × ℚ × ℚ)
  | _, [] => []
  | cur, (t, d) :: rest => (t, cur, fadd cur d) :: timelineF (fadd cur d) rest

/-- The running-cursor offsets of combine_files: previous_time is a
Decimal starting at 0, advanced exactly; each part spans
(previous_time, previous_time + duration). -/
def combineOffsets : ℚ → List ℚ → List (ℚ × ℚ)
  | _, [] => []
  | prev, d :: rest => (prev, prev + d) :: combineOffsets (prev + d) rest

/-- Millisecond serialization in create_metadata_file: the float is
multiplied by 1000 (a float multiply), converted exactly to Decimal, and
quantized to an integer with the default half-even rounding. -/
def msOfF (x : ℚ) : ℤ := roundHalfEvenZ (fmul1000 x)

/-- Millisecond serialization in generate_chapter_metadata: the Decimal is
multiplied by 1000 exactly and quantized half-even. -/
def msOf (x : ℚ) : ℤ := roundHalfEvenZ (x * 1000)

/-- Python str.replace for a single-character pattern: every occurrence is
replaced, left to right. -/
def pyReplace (pat : Char) (rep : List Char) (s : List Char) : List Char :=
  s.flatMap (fun c => if c = pat then rep else [c])

/-- The title escaping of create_metadata_file, in source order:
backslash first, then semicolon, newline, carriage return. -/
def escapeTitle (s : List Char) : List Char :=
  pyReplace '\r' ['\\', 'r']
    (pyReplace '\n' ['\\', 'n']
      (pyReplace ';' ['\\', ';']
        (pyReplace '\\' ['\\', '\\'] s)))

/-- Single-pass character escape: what the four sequential replacements
amount to when no substitution output is re-escaped. -/
def escChar (c : Char) : List Char :=
  if c = '\\' then ['\\', '\\']
  else if c = ';' then ['\\', ';']
  else if c = '\n' then ['\\', 'n']
  else if c = '\r' then ['\\', 'r']
  else [c]

/-- Decimal digits of an integer. -/
def intChars (n : ℤ) : List Char := (toString n).data

/-- One [CHAPTER] block of create_metadata_file. -/
def chapterBlock (t : List Char) (sMs eMs : ℤ) : List Char :=
  "[CHAPTER]\nTIMEBASE=1/1000\nSTART=".data ++ intChars sMs ++
    "\nEND=".data ++ intChars eMs ++
    "\ntitle=".data ++ escapeTitle t ++ "\n\n".data

/-- The block loop of create_metadata_file over the float cursor. -/
def createBlocksGo : ℚ → List (List Char × ℚ) → List Char
  | _, [] => []
  | cur, (title, d) :: rest =>
    chapterBlock title (msOfF cur) (msOfF (fadd cur d))
      ++ createBlocksGo (fadd cur d) rest

/-- The full text create_metadata_file writes. -/
def create_metadata_file (chapters : List (List Char × ℚ)) : List Char :=
  ";FFMETADATA1\n".data ++ createBlocksGo 0 chapters

/-- The serialized (START, END) millisecond pairs of
create_metadata_file, in order. -/
def createMsGo : ℚ → List (List Char × ℚ) → List (ℤ × ℤ)
  | _, [] => []
  | cur, (_, d) :: rest =>
    (msOfF cur, msOfF (fadd cur d)) :: createMsGo (fadd cur d) rest

/-- One block of generate_chapter_metadata (combine_audio.py): note the
TITLE value is written verbatim, with no escaping, and a missing end time
repeats the start. -/
def genChapterBlock (startMs : ℤ) (endMs : Option ℤ) (title : List Char) :
    List Char :=
  "\n[CHAPTER]\nTIMEBASE=1/1000\nSTART=".data ++ intChars startMs ++
    "\n".data ++
    (match endMs with
     | some e => "END=".data ++ intChars e ++ "\n".data
     | none => "END=".data ++ intChars startMs ++ "\n".data) ++
    "TITLE=".data ++ title ++ "\n".data

/-- Chapter title selection of generate_chapter_metadata: the provided
title when the list reaches this index, else "label (index+1)". -/
def genTitle (label : List Char) (titles : Option (List (List Char)))
    (idx : ℕ) : List Char :=
  match titles with
  | some ts => ts.getD idx (label ++ ' ' :: intChars ((idx : ℤ) + 1))
  | none => label ++ ' ' :: intChars ((idx : ℤ) + 1)

/-- The block loop of generate_chapter_metadata. -/
def genBlocks (label : List Char) (titles : Option (List (List Char))) :
    ℕ → List (ℚ × Option ℚ) → List Char
  | _, [] => []
  | idx, (s, e) :: rest =>
    genChapterBlock (msOf s) (e.map msOf) (genTitle label titles idx)
      ++ genBlocks label titles (idx + 1) rest

/-- The full text generate_chapter_metadata writes: header, common
metadata lines, then the blocks, with Part/Chapter labelling decided by
the threshold. -/
def generate_chapter_metadata (offsets : List (ℚ × Option ℚ))
    (chapterThreshold : ℕ) (commonMetadata : List (List Char × List Char))
    (chapterTitles : Option (List (List Char))) : List Char :=
  ";FFMETADATA1\n".data ++
    commonMetadata.flatMap (fun kv => kv.1 ++ '=' :: kv.2 ++ ['\n']) ++
    genBlocks
      (if offsets.length < chapterThreshold then "Part".data else "Chapter".data)
      chapterTitles 0 offsets

/-! ### C1: the running-cursor timeline is contiguous -/

theorem timelineF_chain (specs : List (List Char × ℚ)) :
    ∀ cur, List.Chain' (fun a b => a.2.2 = b.2.1) (timelineF cur specs) := by
  induction specs with
  | nil =>
    intro cur
    simp [timelineF]
  | cons p rest ih =>
    intro cur
    obtain ⟨t, d⟩ := p
    rw [timelineF]
    cases rest with
    | nil => simp [timelineF]
    | cons p2 rest2 =>
      obtain ⟨t2, d2⟩ := p2
      rw [timelineF]
      refine List.Chain'.cons rfl ?_
      have := ih (fadd cur d)
      rw [timelineF] at this
      exact this

theorem combineOffsets_chain (ds : List ℚ) :
    ∀ prev, List.Chain' (fun a b => a.2 = b.1) (combineOffsets prev ds) := by
  induction ds with
  | nil =>
    intro prev
    simp [combineOffsets]
  | cons d rest ih =>
    intro prev
    rw [combineOffsets]
    cases rest with
    | nil => simp [combineOffsets]
    | cons d2 rest2 =>
      rw [combineOffsets]
      refine List.Chain'.cons rfl ?_
      have := ih (prev + d)
      rw [combineOffsets] at this
      exact this

/-- C1.  For a non-empty sequence of positive durations, the timeline
built by the running cursor is contiguous: the first chapter starts at 0
and every chapter's end equals the next chapter's start; likewise for the
part offsets computed in combine_files. -/
theorem timeline_contiguous (specs : List (List Char × ℚ)) (ds : List ℚ)
    (h1 : specs ≠ []) (h2 : ∀ p ∈ specs, 0 < p.2)
    (h3 : ds ≠ []) (h4 : ∀ d ∈ ds, 0 < d) :
    (∀ c, (timelineF 0 specs).head? = some c → c.2.1 = 0) ∧
    List.Chain' (fun a b => a.2.2 = b.2.1) (timelineF 0 specs) ∧
    (∀ p, (combineOffsets 0 ds).head? = some p → p.1 = 0) ∧
    List.Chain' (fun a b => a.2 = b.1) (combineOffsets 0 ds) := by
  refine ⟨?_, timelineF_chain specs 0, ?_, combineOffsets_chain ds 0⟩
  · intro c hc
    cases specs with
    | nil => exact absurd rfl h1
    | cons p rest =>
      obtain ⟨t, d⟩ := p
      rw [timelineF] at hc
      simp at hc
      rw [← hc]
  · intro p hp
    cases ds with
    | nil => exact absurd rfl h3
    | cons d rest =>
      rw [combineOffsets] at hp
      simp at hp
      rw [← hp]

/-! ### Escaping: sequential replaces equal one escape pass -/

theorem pyReplace_def (pat : Char) (rep : List Char) (s : List Char) :
    pyReplace pat rep s = s.flatMap (fun c => if c = pat then rep else [c]) := rfl

theorem flatMap_comp (f g : Char → List Char) (s : List Char) :
    (s.flatMap f).flatMap g = s.flatMap (fun c => (f c).flatMap g) := by
  induction s with
  | nil => simp
  | cons c cs ih =>
    simp only [List.flatMap_cons, List.flatMap_append, ih]

theorem escChar_comp (c : Char) :
    ((if c = '\\' then ['\\', '\\'] else [c]).flatMap fun x =>
      (if x = ';' then ['\\', ';'] else [x]).flatMap fun y =>
        (if y = '\n' then ['\\', 'n'] else [y]).flatMap fun z =>
          if z = '\r' then ['\\', 'r'] else [z]) = escChar c := by
  by_cases h1 : c = '\\'
  · subst h1
    decide
  · by_cases h2 : c = ';'
    · subst h2
      decide
    · by_cases h3 : c = '\n'
      · subst h3
        decide
      · by_cases h4 : c = '\r'
        · subst h4
          decide
        · simp [escChar, h1, h2, h3, h4]

theorem escapeTitle_single_pass (s : List Char) :
    escapeTitle s = s.flatMap escChar := by
  rw [escapeTitle, pyReplace_def, pyReplace_def, pyReplace_def, pyReplace_def,
    flatMap_comp, flatMap_comp, flatMap_comp]
  congr 1
  funext c
  exact escChar_comp c

theorem createBlocksGo_map (chapters : List (List Char × ℚ)) :
    ∀ cur, createBlocksGo cur chapters
      = (timelineF cur chapters).flatMap
          (fun c => chapterBlock c.1 (msOfF c.2.1) (msOfF c.2.2)) := by
  induction chapters with
  | nil =>
    intro cur
    simp [createBlocksGo, timelineF]
  | cons p rest ih =>
    intro cur
    obtain ⟨t, d⟩ := p
    rw [createBlocksGo, timelineF, List.flatMap_cons, ih (fadd cur d)]

/-- C6 (amended).  The metadata text of create_metadata_file is the
FFMETADATA1 header followed by one block per timeline chapter, each with
the 1/1000 timebase, integer-millisecond START and END, and the escaped
title; and the four sequential replacements (backslash first) equal a
single escape pass, i.e. no substitution output is escaped again. -/
theorem metadata_block_structure :
    (∀ s : List Char, escapeTitle s = s.flatMap escChar) ∧
    (∀ chapters : List (List Char × ℚ),
      create_metadata_file chapters
        = ";FFMETADATA1\n".data ++
            (timelineF 0 chapters).flatMap
              (fun c => chapterBlock c.1 (msOfF c.2.1) (msOfF c.2.2))) := by
  constructor
  · exact escapeTitle_single_pass
  · intro chapters
    rw [create_metadata_file, createBlocksGo_map chapters 0]

theorem msOf_zero : msOf 0 = 0 := by
  rw [msOf, show (0 : ℚ) * 1000 = ((0 : ℤ) : ℚ) by norm_num,
    roundHalfEvenZ_intCast]

theorem msOf_one : msOf 1 = 1000 := by
  rw [msOf, show (1 : ℚ) * 1000 = ((1000 : ℤ) : ℚ) by norm_num,
    roundHalfEvenZ_intCast]

/-- C6 (counterexample).  generate_chapter_metadata writes the TITLE field
verbatim: with the title "a;b" the generated text contains the raw
"TITLE=a;b" line, not the escaped form that the claim requires for every
serialized metadata text. -/
theorem generate_metadata_title_unescaped :
    generate_chapter_metadata [(0, some 1)] 6 [] (some ["a;b".data])
      = ";FFMETADATA1\n\n[CHAPTER]\nTIMEBASE=1/1000\nSTART=0\nEND=1000\nTITLE=a;b\n".data ∧
    escapeTitle "a;b".data = "a\\;b".data ∧
    ("a;b".data : List Char) ≠ "a\\;b".data := by
  refine ⟨?_, by decide, by decide⟩
  rw [generate_chapter_metadata, genBlocks, genBlocks]
  simp only [Option.map_some']
  rw [msOf_zero, msOf_one]
  decide

/-! ### Concrete binary64 evaluations -/

theorem rd_5203 : roundDouble (10407/2 : ℚ) = 10407/2 := by
  have := roundDouble_eval_lt (10407/2) 12 (10407 * 2 ^ 39) (by norm_num)
    (by norm_num) (by norm_num) (by norm_num) (by norm_num)
  rw [this]
  norm_num

theorem rd_179 : roundDouble (179/10 : ℚ)
    = 5038402083120742 * (2 : ℚ) ^ (-(48 : ℤ)) := by
  have := roundDouble_eval_lt (179/10) 4 5038402083120742 (by norm_num)
    (by norm_num) (by norm_num) (by norm_num) (by norm_num)
  rw [this]
  norm_num

theorem parse_012643 : parse_durationExact "01:26:43.50".data
    = some (10407/2 : ℚ) := by
  have e1 : pyStrip "01:26:43.50".data = "01:26:43.50".data := by decide
  have e2 : splitSep ':' "01:26:43.50".data
      = ["01".data, "26".data, "43.50".data] := by decide
  have e3 : pyInt "01".data = some 1 := by decide
  have e4 : pyInt "26".data = some 26 := by decide
  have e6 : pyDecimal "43.50".data
      = some ((digitsVal "43".data : ℚ)
          + (digitsVal "50".data : ℚ) / (10 : ℚ) ^ ("50".data).length) := rfl
  rw [parse_durationExact, e1, e2]
  dsimp only
  rw [e3, e4, e6]
  dsimp only
  rw [Option.some.injEq,
    show digitsVal "43".data = 43 by decide,
    show digitsVal "50".data = 50 by decide,
    show ("50".data).length = 2 by decide]
  norm_num

theorem parse_0017 : parse_durationExact "00:17.90".data
    = some (179/10 : ℚ) := by
  have e1 : pyStrip "00:17.90".data = "00:17.90".data := by decide
  have e2 : splitSep ':' "00:17.90".data = ["00".data, "17.90".data] := by decide
  have e3 : pyInt "00".data = some 0 := by decide
  have e6 : pyDecimal "17.90".data
      = some ((digitsVal "17".data : ℚ)
          + (digitsVal "90".data : ℚ) / (10 : ℚ) ^ ("90".data).length) := rfl
  rw [parse_durationExact, e1, e2]
  dsimp only
  rw [e3, e6]
  dsimp only
  rw [Option.some.injEq,
    show digitsVal "17".data = 17 by decide,
    show digitsVal "90".data = 90 by decide,
    show ("90".data).length = 2 by decide]
  norm_num

/-- C5 (amended).  "01:26:43.50" parses to exactly 5203.50 seconds (that
value is representable in binary64, so the float conversion is exact);
"00:17.90" evaluates to exactly 17.90 in the Decimal arithmetic inside
the parser, but the function returns the binary64 value nearest 17.90,
namely 5038402083120742 / 2^48 = 17.89999999999999857891... -/
theorem parse_duration_examples :
    parse_duration "01:26:43.50".data = some (10407/2 : ℚ) ∧
    parse_durationExact "00:17.90".data = some (179/10 : ℚ) ∧
    parse_duration "00:17.90".data
      = some (5038402083120742 * (2 : ℚ) ^ (-(48 : ℤ))) := by
  refine ⟨?_, parse_0017, ?_⟩
  · rw [parse_duration, parse_012643, Option.map_some', rd_5203]
  · rw [parse_duration, parse_0017, Option.map_some', rd_179]

/-- C5 (counterexample).  parse_duration returns a float: on "00:17.90"
the returned value is not exactly 17.90 seconds. -/
theorem parse_duration_0017_not_exact :
    parse_duration "00:17.90".data ≠ some (179/10 : ℚ) := by
  rw [parse_duration, parse_0017, Option.map_some', rd_179]
  intro hcontra
  rw [Option.some.injEq] at hcontra
  norm_num at hcontra

/-! ### C4: float cursor versus exact decimal -/

theorem createMsGo_map (specs : List (List Char × ℚ)) :
    ∀ cur, createMsGo cur specs
      = (timelineF cur specs).map (fun c => (msOfF c.2.1, msOfF c.2.2)) := by
  induction specs with
  | nil =>
    intro cur
    simp [createMsGo, timelineF]
  | cons p rest ih =>
    intro cur
    obtain ⟨t, d⟩ := p
    rw [createMsGo, timelineF, List.map_cons, ih (fadd cur d)]

/-- C4 (amended).  Cumulative timestamps are computed in binary64
floating-point arithmetic (the cursor advances by float addition), and
each serialized START/END value is the binary64 cursor value times 1000
(a float multiply) rounded half-even to an integer millisecond at
serialization time. -/
theorem serialized_ms_from_float_cursor (specs : List (List Char × ℚ)) :
    createMsGo 0 specs
      = (timelineF 0 specs).map (fun c => (msOfF c.2.1, msOfF c.2.2)) :=
  createMsGo_map specs 0

theorem rd_05015 : roundDouble (1003/2000 : ℚ)
    = 4517110426252607 * (2 : ℚ) ^ (-(53 : ℤ)) := by
  have := roundDouble_eval_lt (1003/2000) (-1) 4517110426252607 (by norm_num)
    (by norm_num) (by norm_num) (by norm_num) (by norm_num)
  rw [this]
  norm_num

theorem parse_05015 : parse_durationExact "0:00.5015".data
    = some (1003/2000 : ℚ) := by
  have e1 : pyStrip "0:00.5015".data = "0:00.5015".data := by decide
  have e2 : splitSep ':' "0:00.5015".data = [['0'], "00.5015".data] := by decide
  have e3 : pyInt ['0'] = some 0 := by decide
  have e6 : pyDecimal "00.5015".data
      = some ((digitsVal "00".data : ℚ)
          + (digitsVal "5015".data : ℚ) / (10 : ℚ) ^ ("5015".data).length) := rfl
  rw [parse_durationExact, e1, e2]
  dsimp only
  rw [e3, e6]
  dsimp only
  rw [Option.some.injEq,
    show digitsVal "00".data = 0 by decide,
    show digitsVal "5015".data = 5015 by decide,
    show ("5015".data).length = 4 by decide]
  norm_num

theorem msOfF_zero : msOfF 0 = 0 := by
  rw [msOfF, fmul1000, show (0 : ℚ) * 1000 = 0 by norm_num, roundDouble_zero,
    show (0 : ℚ) = ((0 : ℤ) : ℚ) by norm_num, roundHalfEvenZ_intCast]

theorem fadd_zero_05015 :
    fadd 0 (roundDouble (1003/2000 : ℚ))
      = 4517110426252607 * (2 : ℚ) ^ (-(53 : ℤ)) := by
  rw [fadd, rd_05015,
    show (0 : ℚ) + 4517110426252607 * (2 : ℚ) ^ (-(53 : ℤ))
      = 4517110426252607 * (2 : ℚ) ^ (-(53 : ℤ)) by ring]
  have := roundDouble_eval_lt (4517110426252607 * (2 : ℚ) ^ (-(53 : ℤ))) (-1)
    4517110426252607 (by norm_num) (by norm_num) (by norm_num) (by norm_num)
    (by norm_num)
  rw [this]
  norm_num

theorem msOfF_05015 :
    msOfF (4517110426252607 * (2 : ℚ) ^ (-(53 : ℤ))) = 501 := by
  rw [msOfF, fmul1000]
  have hmul := roundDouble_eval_lt
    (4517110426252607 * (2 : ℚ) ^ (-(53 : ℤ)) * 1000) 8 8822481301274623
    (by norm_num) (by norm_num) (by norm_num) (by norm_num) (by norm_num)
  rw [hmul]
  exact roundHalfEvenZ_of_lt _ 501 (by norm_num) (by norm_num)

theorem exact_ms_05015 : roundHalfEvenZ ((1003/2000 : ℚ) * 1000) = 502 := by
  rw [show (1003/2000 : ℚ) * 1000 = ((501 : ℤ) : ℚ) + 1/2 by norm_num,
    roundHalfEvenZ_tie, if_neg (by decide)]
  decide

/-- C4 (counterexample).  On the chapter line "Intro 0:00.5015" the code's
serialized END is 501 ms (via the float 0.5015 whose product with 1000 is
just below 501.5), while rounding the exact decimal cumulative sum to the
nearest millisecond (half-even) gives 502 ms: the timestamps are not
computed in exact decimal arithmetic. -/
theorem float_cursor_diverges_from_exact_decimal :
    read_chapters ["Intro 0:00.5015".data]
      = .ok [("Intro".data, roundDouble (1003/2000 : ℚ))] ∧
    createMsGo 0 [("Intro".data, roundDouble (1003/2000 : ℚ))] = [(0, 501)] ∧
    roundHalfEvenZ ((1003/2000 : ℚ) * 1000) = 502 := by
  refine ⟨?_, ?_, exact_ms_05015⟩
  · have f1 : skipLine (pyStrip "Intro 0:00.5015".data) = false := by decide
    have f2 : findSplit (pyStrip "Intro 0:00.5015".data)
        = some ("Intro".data, "0:00.5015".data) := by decide
    have f3 : parse_duration "0:00.5015".data
        = some (roundDouble (1003/2000 : ℚ)) := by
      rw [parse_duration, parse_05015, Option.map_some']
    rw [read_chapters, readChaptersGo, if_neg (by rw [f1]; simp), f2]
    dsimp only
    rw [f3]
    dsimp only
    rw [readChaptersGo]
    dsimp only [Except.map]
  · rw [createMsGo, createMsGo, msOfF_zero, fadd_zero_05015, msOfF_05015]

/-! ### Witnesses -/

theorem timeline_contiguous_witness :
    ([("A".data, (30 : ℚ)), ("B".data, 45)] ≠ []) ∧
    (∀ p ∈ [("A".data, (30 : ℚ)), ("B".data, 45)], 0 < p.2) ∧
    ([(30 : ℚ), 45] ≠ []) ∧ (∀ d ∈ [(30 : ℚ), 45], 0 < d) ∧
    ((∀ c, (timelineF 0 [("A".data, (30 : ℚ)), ("B".data, 45)]).head? = some c →
        c.2.1 = 0) ∧
      List.Chain' (fun a b => a.2.2 = b.2.1)
        (timelineF 0 [("A".data, (30 : ℚ)), ("B".data, 45)]) ∧
      (∀ p, (combineOffsets 0 [(30 : ℚ), 45]).head? = some p → p.1 = 0) ∧
      List.Chain' (fun a b => a.2 = b.1) (combineOffsets 0 [(30 : ℚ), 45])) := by
  have h1 : [("A".data, (30 : ℚ)), ("B".data, 45)] ≠ [] := by simp
  have h2 : ∀ p ∈ [("A".data, (30 : ℚ)), ("B".data, 45)], 0 < p.2 := by
    intro p hp
    rcases List.mem_cons.mp hp with hp | hp
    · rw [hp]; norm_num
    · simp at hp; rw [hp]; norm_num
  have h3 : [(30 : ℚ), 45] ≠ [] := by simp
  have h4 : ∀ d ∈ [(30 : ℚ), 45], 0 < d := by
    intro d hd
    rcases List.mem_cons.mp hd with hd | hd
    · rw [hd]; norm_num
    · simp at hd; rw [hd]; norm_num
  exact ⟨h1, h2, h3, h4, timeline_contiguous _ _ h1 h2 h3 h4⟩

theorem hierarchy_builder_invariants_witness :
    WellFormed [PChap.mk "a" 0 10, PChap.mk "b" 1 4,
      PChap.mk "c" 5 9, PChap.mk "d" 10 20] ∧
    ∀ n ∈ build_chapter_hierarchy [PChap.mk "a" 0 10, PChap.mk "b" 1 4,
      PChap.mk "c" 5 9, PChap.mk "d" 10 20], Good n := by
  have hwf : WellFormed [PChap.mk "a" 0 10, PChap.mk "b" 1 4,
      PChap.mk "c" 5 9, PChap.mk "d" 10 20] := by
    constructor
    · intro c hc
      rcases List.mem_cons.mp hc with hc | hc
      · rw [hc]; norm_num [PChap.s, PChap.e]
      rcases List.mem_cons.mp hc with hc | hc
      · rw [hc]; norm_num [PChap.s, PChap.e]
      rcases List.mem_cons.mp hc with hc | hc
      · rw [hc]; norm_num [PChap.s, PChap.e]
      · simp at hc; rw [hc]; norm_num [PChap.s, PChap.e]
    · norm_num [List.pairwise_cons, WFPair, IntervalsDisjoint, StrictlyEncloses]
  exact ⟨hwf, hierarchy_builder_invariants _ hwf⟩

theorem short_chapters_dropped_witness :
    (PChap.mk "short" 2 2 ∈ [PChap.mk "long" 0 5, PChap.mk "short" 2 2]) ∧
    (fsub (PChap.mk "short" 2 2).e (PChap.mk "short" 2 2).s < 1) ∧
    (PChap.mk "short" 2 2 ∉ filterChapters [PChap.mk "long" 0 5, PChap.mk "short" 2 2] ∧
      (∀ k ∈ extract_chapters [PChap.mk "long" 0 5, PChap.mk "short" 2 2],
        ¬ (k.2.1 = (PChap.mk "short" 2 2).s ∧ k.2.2 = (PChap.mk "short" 2 2).e)) ∧
      (∀ forest, display_chapters [PChap.mk "long" 0 5, PChap.mk "short" 2 2]
          = some forest →
        ∀ n ∈ Forest.allNodes forest,
          ¬ (n.s = (PChap.mk "short" 2 2).s ∧ n.e = (PChap.mk "short" 2 2).e))) := by
  have hmem : PChap.mk "short" 2 2 ∈ [PChap.mk "long" 0 5, PChap.mk "short" 2 2] :=
    List.mem_cons_of_mem _ (List.mem_cons_self _ _)
  have hdur : fsub (PChap.mk "short" 2 2).e (PChap.mk "short" 2 2).s < 1 := by
    show fsub (2 : ℚ) 2 < 1
    rw [fsub, show (2 : ℚ) - 2 = 0 by norm_num, roundDouble_zero]
    norm_num
  exact ⟨hmem, hdur, short_chapters_dropped _ _ hmem hdur⟩

theorem read_chapters_line_discipline_witness :
    (skipLine (pyStrip "# a comment".data) = true) ∧
    (∀ x ∈ ["Opening Credits 00:17.90".data],
      skipLine (pyStrip x) = true ∨ findSplit (pyStrip x) ≠ none) ∧
    (skipLine (pyStrip "Intro".data) = false) ∧
    (findSplit (pyStrip "Intro".data) = none) ∧
    ((read_chapters (["Opening Credits 00:17.90".data] ++ "# a comment".data :: [])).toOption
        = (read_chapters (["Opening Credits 00:17.90".data] ++ [])).toOption ∧
      read_chapters (["Opening Credits 00:17.90".data] ++ "Intro".data :: [])
        = .error (.malformed (["Opening Credits 00:17.90".data].length + 1)
            (pyStrip "Intro".data))) := by
  have hb : skipLine (pyStrip "# a comment".data) = true := by decide
  have hgood : ∀ x ∈ ["Opening Credits 00:17.90".data],
      skipLine (pyStrip x) = true ∨ findSplit (pyStrip x) ≠ none := by decide
  have hl : skipLine (pyStrip "Intro".data) = false := by decide
  have hnm : findSplit (pyStrip "Intro".data) = none := by decide
  exact ⟨hb, hgood, hl, hnm,
    read_chapters_line_discipline _ _ _ _ hb hgood hl hnm⟩

theorem negative_durations_rejected_witness :
    (∃ q, parse_duration "1:23".data = some q ∧ 0 ≤ q) ∧
    read_chapters ["Intro -0:30".data]
      = .error (.malformed 1 (pyStrip "Intro -0:30".data)) :=
  ⟨negative_durations_rejected.1 "1:23".data (by decide),
    negative_durations_rejected.2.2 "Intro -0:30".data (by decide) (by decide)⟩

/-! ### C9: the filter compares the rounded float difference -/

theorem fsub_edge :
    fsub (9/8 : ℚ) (4503599627370497/36028797018963968) = 1 := by
  rw [fsub, show (9/8 : ℚ) - 4503599627370497/36028797018963968
      = 36028797018963967/36028797018963968 by norm_num]
  have := roundDouble_eval_gt (36028797018963967/36028797018963968) (-1)
    9007199254740991 (by norm_num) (by norm_num) (by norm_num) (by norm_num)
    (by norm_num)
  rw [this]
  norm_num

theorem fsub_5_2 : fsub (5 : ℚ) 2 = 3 := by
  rw [fsub, show (5 : ℚ) - 2 = 3 by norm_num]
  have := roundDouble_eval_lt 3 1 (3 * 2 ^ 51) (by norm_num) (by norm_num)
    (by norm_num) (by norm_num) (by norm_num)
  rw [this]
  norm_num

theorem build_chapter_hierarchy_singleton (c : PChap) :
    build_chapter_hierarchy [c] = [Node.mk c.title c.s c.e []] := by
  have hsort : sortByStart [c] = [c] := by
    rw [sortByStart]
    simp [List.insertionSort, List.orderedInsert]
  rw [build_chapter_hierarchy, hsort, List.foldl_cons, List.foldl_nil, hstep_eq,
    closeFrames_nil]
  rw [finalize_one]
  simp

/-- C9 (counterexample).  The one-second filter compares the rounded
binary64 difference float(end) - float(start), not the exact duration:
the chapter (0.125 + 2^-55, 1.125) has exact duration 1 - 2^-55 < 1, yet
the float subtraction rounds to exactly 1.0, so the code keeps it: it
remains in the filtered flat list, is emitted by extraction, and appears
in the displayed hierarchy. -/
theorem float_filter_keeps_subsecond_chapter :
    (PChap.mk "edge" (4503599627370497/36028797018963968) (9/8)).e
        - (PChap.mk "edge" (4503599627370497/36028797018963968) (9/8)).s < 1 ∧
    PChap.mk "edge" (4503599627370497/36028797018963968) (9/8)
      ∈ filterChapters
          [PChap.mk "edge" (4503599627370497/36028797018963968) (9/8)] ∧
    (∃ k ∈ extract_chapters
        [PChap.mk "edge" (4503599627370497/36028797018963968) (9/8),
          PChap.mk "other" 2 5],
      k.2.1 = (4503599627370497/36028797018963968 : ℚ) ∧ k.2.2 = (9/8 : ℚ)) ∧
    (∃ forest, display_chapters
          [PChap.mk "edge" (4503599627370497/36028797018963968) (9/8)]
        = some forest ∧
      ∃ n ∈ Forest.allNodes forest,
        n.s = (4503599627370497/36028797018963968 : ℚ) ∧ n.e = (9/8 : ℚ)) := by
  have hkeep1 : (1 : ℚ) ≤
      fsub (PChap.mk "edge" (4503599627370497/36028797018963968) (9/8)).e
        (PChap.mk "edge" (4503599627370497/36028797018963968) (9/8)).s := by
    show (1 : ℚ) ≤ fsub (9/8) (4503599627370497/36028797018963968)
    rw [fsub_edge]
  have hkeep2 : (1 : ℚ) ≤
      fsub (PChap.mk "other" 2 5).e (PChap.mk "other" 2 5).s := by
    show (1 : ℚ) ≤ fsub 5 2
    rw [fsub_5_2]
    norm_num
  have hflt1 : filterChapters
      [PChap.mk "edge" (4503599627370497/36028797018963968) (9/8)]
      = [PChap.mk "edge" (4503599627370497/36028797018963968) (9/8)] := by
    rw [filterChapters_cons_keep _ _ hkeep1, filterChapters_nil]
  have hflt2 : filterChapters
      [PChap.mk "edge" (4503599627370497/36028797018963968) (9/8),
        PChap.mk "other" 2 5]
      = [PChap.mk "edge" (4503599627370497/36028797018963968) (9/8),
        PChap.mk "other" 2 5] := by
    rw [filterChapters_cons_keep _ _ hkeep1,
      filterChapters_cons_keep _ _ hkeep2, filterChapters_nil]
  refine ⟨?_, ?_, ?_, ?_⟩
  · show (9/8 : ℚ) - 4503599627370497/36028797018963968 < 1
    norm_num
  · rw [hflt1]
    exact List.mem_cons_self _ _
  · have hn1 : ¬ (fsub (PChap.mk "edge"
        (4503599627370497/36028797018963968) (9/8)).e
        (PChap.mk "edge" (4503599627370497/36028797018963968) (9/8)).s < 1) := by
      intro hcon
      rw [show (PChap.mk "edge" (4503599627370497/36028797018963968) (9/8)).e
          = (9/8 : ℚ) from rfl,
        show (PChap.mk "edge" (4503599627370497/36028797018963968) (9/8)).s
          = (4503599627370497/36028797018963968 : ℚ) from rfl, fsub_edge] at hcon
      norm_num at hcon
    rw [extract_chapters, if_neg (by simp),
      if_neg (by rw [hflt2]; decide), hflt2, extractLoop, if_neg hn1,
      if_neg (by simp)]
    dsimp only
    exact ⟨_, List.mem_cons_self _ _, rfl, rfl⟩
  · have hdisp : display_chapters
        [PChap.mk "edge" (4503599627370497/36028797018963968) (9/8)]
        = some [Node.mk "edge" (4503599627370497/36028797018963968) (9/8) []] := by
      rw [display_chapters, if_neg (by simp), if_neg (by rw [hflt1]; simp),
        hflt1, build_chapter_hierarchy_singleton]
    refine ⟨[Node.mk "edge" (4503599627370497/36028797018963968) (9/8) []],
      hdisp, Node.mk "edge" (4503599627370497/36028797018963968) (9/8) [],
      ?_, rfl, rfl⟩
    simp [Forest.allNodes, Node.allNodes]
